import Mathlib

/-!
# Shallow embedding of `mltools/data_extractors.py`

This file embeds the chip-extraction and batching core of the repository
(`get_iter_data` and the class `getIterData`) as executable Lean functions
and proves properties of the batching, padding, stratified-sampling and
proportion logic.

Conventions of the embedding:
* Python floats are modelled as `ℚ` (the algorithms use only field
  operations and truncation, so rationals model them exactly).
* Python `int(x)` (truncation toward zero) is `pyInt`.
* A geojson feature's `properties` mapping is an optional association list
  (`none` models a `None` properties object, whose item access raises
  `TypeError`; a missing key raises `KeyError` — both are modelled by a
  failing `Option` lookup).  A property value is an `Option String`
  (`none` models a JSON `null`, i.e. Python `None`).
* Fallible code paths (uncaught `KeyError`, `ZeroDivisionError`,
  tuple-unpack errors, numpy `IndexError`) are modelled with
  `Except String`.
* `numpy` arrays are nested lists; a masked array has `Option ℚ` entries
  (`none` = masked out).
-/

namespace Mltools

/-- Python 2 `int(q)` on a float: truncation toward zero. -/
def pyInt (q : ℚ) : ℤ := if 0 ≤ q then ⌊q⌋ else -⌊-q⌋

/-- Python `str` applied to a property value (`str(None) = "None"`). -/
def pyStr (v : Option String) : String := v.getD "None"

/-- A geojson feature: its `properties` member. `none` models a feature
whose `properties` object is `None` (item access raises `TypeError`);
a property value of `none` models a JSON `null`. -/
structure Feature where
  props : Option (List (String × Option String))
deriving Repr, DecidableEq

/-- `polygon['properties'][name]`: `none` when the `properties` object is
`None` (`TypeError`) or the key is absent (`KeyError`); otherwise the
stored value (possibly a JSON `null`). -/
def lookupProp (f : Feature) (name : String) : Option (Option String) :=
  f.props.bind fun ps => (ps.find? fun p => p.1 == name).map Prod.snd

/-- Modelled from the spec: `geojson_tools.find_unique_values` (the
geometry property index of §4.1) is imported by the source as
`gt.find_unique_values` but its definition is not part of the provided
source files.  Per the spec it returns the set of distinct values observed
for a property name in the feature collection. -/
def find_unique_values (features : List Feature) (property_name : String) :
    List String :=
  (features.filterMap fun f => (lookupProp f property_name).join).dedup

/-- `getIterData.get_proportion` (data_extractors.py lines 354–382):
walks every feature, counts the total, counts the features whose
`property_name` value stringifies to `prop` (lookup failures are swallowed
by the bare `except` and only skip the numerator), and returns
`float(prop) / total`.  `none` models the `ZeroDivisionError` raised when
the collection is empty. -/
def get_proportion (features : List Feature) (property_name prop : String) :
    Option ℚ :=
  let total : ℕ := features.length
  let cnt : ℕ := features.countP fun f =>
    match lookupProp f property_name with
    | some v => pyStr v == prop
    | none => false
  if total = 0 then none else some ((cnt : ℚ) / (total : ℚ))

/-- `getIterData._format_props_input` (lines 342–352).  The input dict is
*mutated in place*: every value is divided by `float(total_prop)`; the
returned pair is (the mutated caller dict, the fresh integer-quota dict
`p_new`).  `none` models the `ZeroDivisionError` when the values sum
to zero.  Dicts are association lists. -/
def _format_props_input (batch_size : ℕ) (props : List (String × ℚ)) :
    Option (List (String × ℚ) × List (String × ℤ)) :=
  let total_prop : ℚ := (props.map Prod.snd).sum
  if total_prop = 0 then none
  else
    let props' := props.map fun kv => (kv.1, kv.2 / total_prop)
    some (props', props'.map fun kv => (kv.1, pyInt (kv.2 * (batch_size : ℚ))))

/-- The empirical (`props=None`) quota table of `getIterData.__init__`
(lines 323–328): for each distinct `image_id`, keep the id with quota
`int(get_proportion('image_id', id) * batch_size)` when that quota is
strictly positive.  (`get_proportion` cannot return `none` here because an
id was observed, so the collection is non-empty; the `none` branch is
dead.) -/
def empiricalProps (features : List Feature) (batch_size : ℕ) :
    List (String × ℤ) :=
  (find_unique_values features "image_id").filterMap fun id =>
    match get_proportion features "image_id" id with
    | none => none
    | some q =>
      if 0 < pyInt (q * (batch_size : ℚ)) then
        some (id, pyInt (q * (batch_size : ℚ)))
      else none

/-- Lines 317–328 of `__init__`: the image-id list and the quota table
before the shortfall correction.  `propsIn = some p` models a
caller-supplied `props` dict; Python's `if props:` treats an *empty* dict
as falsy, taking the empirical branch.  `.error` models the uncaught
`ZeroDivisionError` from `_format_props_input`. -/
def initTables (features : List Feature) (batch_size : ℕ)
    (propsIn : Option (List (String × ℚ))) :
    Except String (List String × List (String × ℤ)) :=
  match propsIn with
  | some p =>
    if p.isEmpty then
      .ok (find_unique_values features "image_id", empiricalProps features batch_size)
    else
      match _format_props_input batch_size p with
      | none => .error "ZeroDivisionError"
      | some (_, p_new) => .ok (p.map Prod.fst, p_new)
  | none =>
      .ok (find_unique_values features "image_id", empiricalProps features batch_size)

/-- Lines 330–334 of `__init__`: if the quotas total less than
`batch_size`, add the whole shortfall to one randomly chosen key of the
quota table.  The random draw `np.random.choice(self.props.keys())` is
modelled by the `choice` parameter (reduced mod the table length);
`np.random.choice` on an empty list raises, modelled as `.error`. -/
def fixShortfall (batch_size : ℕ) (choice : ℕ) (props : List (String × ℤ)) :
    Except String (List (String × ℤ)) :=
  let total : ℤ := (props.map Prod.snd).sum
  if total < (batch_size : ℤ) then
    match props[choice % props.length]? with
    | some kv =>
        .ok (props.set (choice % props.length) (kv.1, kv.2 + ((batch_size : ℤ) - total)))
    | none => .error "ValueError: a must be non-empty"
  else .ok props

/-- Dict lookup `self.props[id]` on the association-list model. -/
def assocLookup (l : List (String × ℤ)) (k : String) : Option ℤ :=
  (l.find? fun kv => kv.1 == k).map Prod.snd

/-- Lines 338–340 of `__init__`: one chip generator per id in
`self.img_ids`, sized `self.props[id]`; a missing key raises `KeyError`. -/
def initChipGens (img_ids : List String) (props : List (String × ℤ)) :
    Except String (List (String × ℤ)) :=
  img_ids.mapM fun id =>
    match assocLookup props id with
    | some q => Except.ok (id, q)
    | none => Except.error "KeyError"

/-- The state built by `getIterData.__init__`: the image ids, the quota
table `self.props`, and the per-image generators (represented by the
(id, batch quota) pair each generator was created with). -/
structure IterState where
  img_ids : List String
  props : List (String × ℤ)
  chip_gens : List (String × ℤ)
deriving Repr, DecidableEq

/-- `getIterData.__init__` (lines 303–340): build the quota table, apply
the shortfall correction, then create one generator per image id. -/
def getIterData_init (features : List Feature) (batch_size : ℕ)
    (propsIn : Option (List (String × ℚ))) (choice : ℕ) :
    Except String IterState :=
  match initTables features batch_size propsIn with
  | .error e => .error e
  | .ok (img_ids, props0) =>
    match fixShortfall batch_size choice props0 with
    | .error e => .error e
    | .ok props1 =>
      match initChipGens img_ids props1 with
      | .error e => .error e
      | .ok gens => .ok ⟨img_ids, props1, gens⟩

/-! ## The chip pipeline: size filter, padder, accumulator -/

/-- A raw chip as returned by `img.iter_vector`: a masked numpy array,
channel × row × column; `none` entries are masked out. -/
abbrev RawChip := List (List (List (Option ℚ)))

/-- `np.shape` of a three-dimensional array (the nested lists are assumed
rectangular, as numpy arrays are; `IsRect` states that). -/
def npShape3 (c : RawChip) : ℕ × ℕ × ℕ :=
  (c.length, (c.headD []).length, ((c.headD []).headD []).length)

/-- The nested lists form a rectangular `chan × h × w` array. -/
def IsRect (c : List (List (List α))) (chan h w : ℕ) : Prop :=
  c.length = chan ∧ ∀ p ∈ c, p.length = h ∧ ∀ r ∈ p, r.length = w

instance (c : List (List (List α))) (chan h w : ℕ) :
    Decidable (IsRect c chan h w) := by
  unfold IsRect; infer_instance

/-- `chip.filled(0).astype(float)`: replace masked entries with zeros. -/
def filled0 (c : RawChip) : List (List (List ℚ)) :=
  c.map fun plane => plane.map fun row => row.map fun o => o.getD 0

/-- One padded row: `lead` zeros, the row, `trail` zeros. -/
def padRow (lead trail : ℕ) (row : List ℚ) : List ℚ :=
  List.replicate lead 0 ++ row ++ List.replicate trail 0

/-- `np.pad(chip, [(0,0),(pad_h/2, pad_h - pad_h/2),(pad_w/2, pad_w - pad_w/2)],
'constant', constant_values=0)` where `pad_h = max_chip_hw - h` and
`pad_w = max_chip_hw - w` (lines 142–143 / 423–424).  At the call site the
size filter guarantees `h ≤ max_chip_hw` and `w ≤ max_chip_hw`, so the
natural subtraction and `pad/2` (floor) match the Python integer
arithmetic.  New rows are sized to the padded width. -/
def padChip (max_chip_hw h w : ℕ) (chip : List (List (List ℚ))) :
    List (List (List ℚ)) :=
  let pad_h := max_chip_hw - h
  let pad_w := max_chip_hw - w
  let zrow : List ℚ := List.replicate (pad_w / 2 + w + (pad_w - pad_w / 2)) 0
  chip.map fun plane =>
    List.replicate (pad_h / 2) zrow
      ++ plane.map (padRow (pad_w / 2) (pad_w - pad_w / 2))
      ++ List.replicate (pad_h - pad_h / 2) zrow

/-- `chip_patch /= 255.` (line 151 / 427). -/
def normalizeChip (c : List (List (List ℚ))) : List (List (List ℚ)) :=
  c.map fun plane => plane.map fun row => row.map fun x => x / 255

/-- The class dictionary `{classes[i]: i}` followed by `cls_dict[label]`:
position of `label` in `classes` (a missing class raises `KeyError`,
caught by the surrounding handler). -/
def clsIndex (classes : List String) (label : String) : Option ℕ :=
  classes.indexOf? label

/-- The label lookup of lines 154–161 / 430–437: `properties['class_name']`
(`TypeError`/`KeyError` caught → skip), `if label is None: continue`,
`cls_dict[label]` (`KeyError` caught → skip).  `none` means the polygon is
skipped. -/
def resolveLabel (classes : List String) (f : Feature) : Option ℕ :=
  match lookupProp f "class_name" with
  | none => none
  | some none => none
  | some (some label) => clsIndex classes label

/-- One item yielded by `img.iter_vector`: the (possibly `None`) chip and
the feature's properties. -/
structure VecItem where
  chip : Option RawChip
  feature : Feature
deriving Repr, DecidableEq

/-- The accumulator state `ct, inputs, labels, ids` (line 114 / 405). -/
structure AccState where
  ct : ℕ
  inputs : List (List (List (List ℚ)))
  labels : List ℕ
  ids : List (Option String)
deriving Repr, DecidableEq

/-- The empty accumulator `0, [], [], []`. -/
def AccState.empty : AccState := ⟨0, [], [], []⟩

/-- One emitted batch `data`: the stacked pixel tensor, then the id list
(if requested), then the one-hot label matrix (if requested). -/
structure Batch where
  X : List (List (List (List ℚ)))
  ids : Option (List (Option String))
  Y : Option (List (List ℚ))
deriving Repr, DecidableEq

/-- `np.zeros((r, c))`. -/
def npZeros (r c : ℕ) : List (List ℚ) :=
  List.replicate r (List.replicate c 0)

/-- `Y[i, j] = 1` on a numpy matrix; out-of-range indices raise
`IndexError`. -/
def matSetOne (Y : List (List ℚ)) (i j : ℕ) : Except String (List (List ℚ)) :=
  match Y[i]? with
  | some row =>
      if j < row.length then .ok (Y.set i (row.set j 1))
      else .error "IndexError"
  | none => .error "IndexError"

/-- The one-hot label matrix (lines 181–183 / 198–200 / 457–459):
`Y = np.zeros((rows, nb_classes)); for i in range(rows): Y[i, labels[i]] = 1`.
A list index past `len(labels)` raises `IndexError`, as does a label not
below `nb_classes`. -/
def oneHot (rows nb_classes : ℕ) (labels : List ℕ) :
    Except String (List (List ℚ)) :=
  (List.range rows).foldlM
    (fun Y i =>
      match labels[i]? with
      | some l => matSetOne Y i l
      | none => .error "IndexError")
    (npZeros rows nb_classes)

/-- Batch emission (lines 174–186 / 450–461): `data = [np.array(inputs)]`,
then the ids if requested, then the one-hot matrix `Y` with `rows` rows if
requested (a numpy `IndexError` from the one-hot loop propagates). -/
def emitBatch (return_id return_labels : Bool) (nb_classes rows : ℕ)
    (st : AccState) : Except String Batch :=
  if return_labels then
    match oneHot rows nb_classes st.labels with
    | .error e => .error e
    | .ok Y => .ok ⟨st.inputs, if return_id then some st.ids else none, some Y⟩
  else .ok ⟨st.inputs, if return_id then some st.ids else none, none⟩

/-- Accumulator invariant threaded through the extraction loops: the
buffer length equals `ct`, `ct` is below the batch quota, the label list
tracks `ct` when labels are requested, and every recorded label is below
the one-hot width. -/
def AccInv (batch nb : ℕ) (return_labels : Bool) (st : AccState) : Prop :=
  st.inputs.length = st.ct ∧ st.ct < batch ∧
  (return_labels = true → st.labels.length = st.ct) ∧
  ∀ l ∈ st.labels, l < nb

/-- Parameters shared by both extraction loops. -/
structure IterParams where
  batch_size : ℕ
  nb_classes : ℕ
  min_chip_hw : ℕ
  max_chip_hw : ℕ
  classes : List String
  return_id : Bool
  return_labels : Bool
  normalize : Bool
deriving Repr, DecidableEq

/-- The common body of the two extraction loops, entered with a non-`None`
chip in hand (lines 134–187 of `get_iter_data`; lines 416–462 of
`yield_from_img_id`): size filter, mask fill, zero-pad, optional
normalization, label lookup (skips on failure), optional id lookup
(uncaught `KeyError`/`TypeError` on a missing `feature_id`), accumulate,
and emit a batch of `rows = batch` rows once `ct == batch`.  Returns the
new accumulator state and the emitted batch, if any. -/
def chipStep (p : IterParams) (batch : ℕ) (nb_classes : ℕ) (st : AccState)
    (chip : RawChip) (f : Feature) : Except String (AccState × Option Batch) :=
  let (_chan, h, w) := npShape3 chip
  if min h w < p.min_chip_hw ∨ max h w > p.max_chip_hw then
    .ok (st, none)
  else
    let chip_patch := padChip p.max_chip_hw h w (filled0 chip)
    let chip_patch := if p.normalize then normalizeChip chip_patch else chip_patch
    let labels? : Option (List ℕ) :=
      if p.return_labels then
        match resolveLabel p.classes f with
        | none => none
        | some l => some (st.labels ++ [l])
      else some st.labels
    match labels? with
    | none => .ok (st, none)
    | some labels' =>
      let ids? : Except String (List (Option String)) :=
        if p.return_id then
          match lookupProp f "feature_id" with
          | some v => .ok (st.ids ++ [v])
          | none => .error "KeyError"
        else .ok st.ids
      match ids? with
      | .error e => .error e
      | .ok ids' =>
        let st' : AccState := ⟨st.ct + 1, st.inputs ++ [chip_patch], labels', ids'⟩
        if st'.ct = batch then
          match emitBatch p.return_id p.return_labels nb_classes batch st' with
          | .error e => .error e
          | .ok b => .ok (AccState.empty, some b)
        else .ok (st', none)

/-- One loop iteration of `get_iter_data` (lines 127–187).  Line 134 runs
`chan, h, w = np.shape(chip)` *before* the `chip is None` test on
line 136; `np.shape(None)` is the empty tuple `()`, so a `None` chip fails
to unpack into three names and raises `ValueError` — the `chip is None`
disjunct of line 136 is unreachable. -/
def getIterStep (p : IterParams) (st : AccState) (item : VecItem) :
    Except String (AccState × Option Batch) :=
  match item.chip with
  | none => .error "ValueError: need more than 0 values to unpack"
  | some chip => chipStep p p.batch_size p.nb_classes st chip item.feature

/-- One loop iteration of `getIterData.yield_from_img_id`
(lines 409–462).  Here the `chip is None` test (line 414) comes *before*
`np.shape`, so a `None` chip is skipped.  The one-hot matrix is sized by
`len(self.classes)` (line 457), and batches hold `batch` rows. -/
def yieldStep (p : IterParams) (batch : ℕ) (st : AccState) (item : VecItem) :
    Except String (AccState × Option Batch) :=
  match item.chip with
  | none => .ok (st, none)
  | some chip => chipStep p batch p.classes.length st chip item.feature

/-- Run an extraction loop over a stream of `iter_vector` items,
collecting the emitted batches and the final accumulator state. -/
def runLoop (step : AccState → VecItem → Except String (AccState × Option Batch)) :
    AccState → List VecItem → Except String (List Batch × AccState)
  | st, [] => .ok ([], st)
  | st, item :: rest =>
    match step st item with
    | .error e => .error e
    | .ok (st', b?) =>
      match runLoop step st' rest with
      | .error e => .error e
      | .ok (bs, stf) => .ok (b?.toList ++ bs, stf)

/-- `get_iter_data` (lines 76–202), as the list of batches the generator
yields over the concatenated `iter_vector` streams of all images (the
accumulator `ct, inputs, labels, ids` is *not* reset between images, so a
single item stream is the faithful model).  After the loops, lines
189–202 emit one final batch of the remaining buffered items if any are
left — its label matrix is sized `(len(labels), nb_classes)`. -/
def get_iter_data (p : IterParams) (items : List VecItem) :
    Except String (List Batch) :=
  match runLoop (getIterStep p) AccState.empty items with
  | .error e => .error e
  | .ok (bs, st) =>
    if st.inputs.length ≠ 0 then
      match emitBatch p.return_id p.return_labels p.nb_classes st.labels.length st with
      | .error e => .error e
      | .ok b => .ok (bs ++ [b])
    else .ok bs

/-- `getIterData.yield_from_img_id` (lines 384–462), as the list of
batches the generator yields over its `iter_vector` stream, together with
the accumulator state left when the stream ends.  Note the loop has no
trailing partial-batch emission: buffered leftovers are discarded when
the generator returns. -/
def yield_from_img_id (p : IterParams) (batch : ℕ) (items : List VecItem) :
    Except String (List Batch × AccState) :=
  runLoop (yieldStep p batch) AccState.empty items

/-! ## `getIterData.next`: the cross-image merge -/

/-- `np.random.shuffle` modelled by an explicit list of indices: row `i`
of the result is row `perm[i]` of the input (for a permutation `perm` of
`range len` this is exactly a uniform shuffle's outcome). -/
def applyPerm {α : Type} (perm : List ℕ) (l : List α) : List α :=
  perm.filterMap fun i => l[i]?

/-- `gen.next()` on one per-image generator: its next batch and advanced
state, or `none` (`StopIteration`) when it is exhausted. -/
def pullGen {α : Type} (g : String × List (List α)) :
    Option (List α × (String × List (List α))) :=
  g.2.head?.map fun b => (b, (g.1, g.2.tail))

/-- `getIterData.next` (lines 464–476).  Each per-image generator is
modelled by the list of batches it has left to yield, a batch being a
list of rows (`zip(*gen.next())` turns the yielded columns into rows).
`next` pulls one batch from every generator (`gen.next()` on an exhausted
generator raises `StopIteration`, modelled by `none`), concatenates the
rows, shuffles them, and returns them with the advanced generator
states. -/
def getIterData_next {α : Type} (perm : List ℕ)
    (gens : List (String × List (List α))) :
    Option (List α × List (String × List (List α))) :=
  match gens.mapM pullGen with
  | none => none
  | some pulls =>
    some (applyPerm perm (pulls.map Prod.fst).flatten, pulls.map Prod.snd)

/-- `k` successive calls of `next`, keeping the generator states. -/
def nextIterate {α : Type} (perm : List ℕ) :
    ℕ → List (String × List (List α)) → Option (List (String × List (List α)))
  | 0, gens => some gens
  | k + 1, gens =>
    match getIterData_next perm gens with
    | none => none
    | some (_, gens') => nextIterate perm k gens'

/-! ## Concrete sample inputs (used by witnesses and counterexamples) -/

/-- A feature on image strip "A". -/
def fA : Feature := ⟨some [("image_id", some "A")]⟩

/-- A feature on image strip "B". -/
def fB : Feature := ⟨some [("image_id", some "B")]⟩

/-- A feature with only a class name. -/
def fPool : Feature := ⟨some [("class_name", some "a")]⟩

/-- A 1-channel 2×2 raw chip with one masked entry. -/
def chip22 : RawChip := [[[some 1, some 2], [none, some 4]]]

/-- Small parameters: batch size 2, one class, no normalization/ids. -/
def P0 : IterParams := ⟨2, 1, 0, 2, ["a"], false, true, false⟩

/-- An `iter_vector` item carrying `chip22`. -/
def item0 : VecItem := ⟨some chip22, fPool⟩

/-- An `iter_vector` item whose chip is `None`. -/
def itemNone : VecItem := ⟨none, fPool⟩

/-! ## Basic lemmas -/

theorem pyInt_of_nonneg {q : ℚ} (h : 0 ≤ q) : pyInt q = ⌊q⌋ := if_pos h

theorem pyInt_nonneg {q : ℚ} (h : 0 ≤ q) : 0 ≤ pyInt q := by
  rw [pyInt_of_nonneg h]; exact Int.floor_nonneg.mpr h

theorem pyInt_cast_le {q : ℚ} (h : 0 ≤ q) : (pyInt q : ℚ) ≤ q := by
  rw [pyInt_of_nonneg h]; exact Int.floor_le q

/-! ## Claim theorems -/

/-- Claim C9: `getIterData.get_proportion` returns (count of features whose
named property equals the given value) / (total feature count); features
whose lookup raises are excluded from the numerator but counted in the
denominator (the denominator is the full collection length); it fails
(`ZeroDivisionError`, modelled by `none`) iff the collection is empty. -/
theorem C9_get_proportion_spec (features : List Feature) (name v : String) :
    (get_proportion features name v = none ↔ features = []) ∧
    ∀ q, get_proportion features name v = some q →
      q = ((features.filter fun f =>
              match lookupProp f name with
              | some v0 => pyStr v0 == v
              | none => false).length : ℚ) / (features.length : ℚ) ∧
      0 ≤ q ∧ q ≤ 1 := by
  refine ⟨⟨fun h => ?_, fun h => by subst h; rfl⟩, fun q hq => ?_⟩
  · by_cases hf : features = []
    · exact hf
    · exfalso
      have hlen0 : features.length ≠ 0 := by
        simpa [List.length_eq_zero] using hf
      simp [get_proportion, hlen0] at h
  · have hf : features ≠ [] := by
      intro hcon; subst hcon; simp [get_proportion] at hq
    have hlen0 : features.length ≠ 0 := by
      simpa [List.length_eq_zero] using hf
    have hlen : 0 < (features.length : ℚ) := by
      exact_mod_cast Nat.pos_of_ne_zero hlen0
    have hq' : ((features.countP fun f =>
        match lookupProp f name with
        | some v0 => pyStr v0 == v
        | none => false : ℕ) : ℚ) / (features.length : ℚ) = q := by
      simpa [get_proportion, hlen0] using hq
    subst hq'
    refine ⟨by rw [List.countP_eq_length_filter], ?_, ?_⟩
    · positivity
    · rw [div_le_one hlen]
      exact_mod_cast features.countP_le_length _

/-- Witness for C9 at a three-feature collection. -/
theorem C9_get_proportion_spec_witness :
    (get_proportion [fA, fA, fB] "image_id" "A" = none ↔ ([fA, fA, fB] : List Feature) = []) ∧
    ((2 : ℚ) / 3 = (([fA, fA, fB].filter fun f =>
        match lookupProp f "image_id" with
        | some v0 => pyStr v0 == "A"
        | none => false).length : ℚ) / (([fA, fA, fB] : List Feature).length : ℚ) ∧
      (0 : ℚ) ≤ 2 / 3 ∧ (2 : ℚ) / 3 ≤ 1) := by
  have h := C9_get_proportion_spec [fA, fA, fB] "image_id" "A"
  exact ⟨h.1, h.2 (2 / 3) (by rfl)⟩

/-- Claim C10: `_format_props_input` mutates the caller-supplied dict in
place (modelled by the first returned component, which the caller's alias
keeps after construction): every value is divided by the sum of the
values, so the caller's dict afterwards holds normalized fractions (same
keys, each value = original / total, values summing to 1). -/
theorem C10_format_props_mutation (B : ℕ) (props props' : List (String × ℚ))
    (p_new : List (String × ℤ))
    (h : _format_props_input B props = some (props', p_new)) :
    props'.map Prod.fst = props.map Prod.fst ∧
    (∀ i : ℕ, props'[i]? = (props[i]?).map
      (fun kv : String × ℚ => (kv.1, kv.2 / (props.map Prod.snd).sum))) ∧
    (props.map Prod.snd).sum ≠ 0 ∧
    (props'.map Prod.snd).sum = 1 := by
  simp only [_format_props_input] at h
  split at h
  · simp at h
  · rename_i htot
    obtain ⟨rfl, rfl⟩ := Prod.mk.inj (Option.some.inj h)
    refine ⟨by simp, fun i => by simp, htot, ?_⟩
    rw [List.map_map]
    have hfn : (Prod.snd ∘ fun kv : String × ℚ =>
        (kv.1, kv.2 / (props.map Prod.snd).sum)) =
        fun kv : String × ℚ => kv.2 * ((props.map Prod.snd).sum)⁻¹ := by
      funext kv; simp [div_eq_mul_inv]
    rw [hfn, List.sum_map_mul_right, ← div_eq_mul_inv, div_self htot]

/-- Witness for C10 at the dict `{A: 1, B: 3}`. -/
theorem C10_format_props_mutation_witness :
    [("A", (1 : ℚ) / 4), ("B", (3 : ℚ) / 4)].map Prod.fst =
      [("A", (1 : ℚ)), ("B", (3 : ℚ))].map Prod.fst ∧
    ([("A", (1 : ℚ) / 4), ("B", (3 : ℚ) / 4)].map Prod.snd).sum = 1 := by
  have h := C10_format_props_mutation 8 [("A", 1), ("B", 3)]
      [("A", 1 / 4), ("B", 3 / 4)] [("A", 2), ("B", 6)] (by
        have h2 : ⌊(2:ℚ)⌋ = 2 := by norm_num
        have h6 : ⌊(6:ℚ)⌋ = 6 := by norm_num
        simp [_format_props_input, pyInt]
        norm_num [h2, h6])
  exact ⟨h.1, h.2.2.2⟩

/-- Claim C5 (code bug): a `None` chip should be skipped silently in both
loops.  `yield_from_img_id` does skip it, but `get_iter_data` executes
`chan, h, w = np.shape(chip)` (line 134) before its `chip is None` test
(line 136); `np.shape(None)` is `()`, so unpacking raises `ValueError`
instead of skipping. -/
theorem C5_none_chip_behaviour (p : IterParams) (batch : ℕ) (st : AccState)
    (f : Feature) :
    getIterStep p st ⟨none, f⟩ =
      .error "ValueError: need more than 0 values to unpack" ∧
    yieldStep p batch st ⟨none, f⟩ = .ok (st, none) :=
  ⟨rfl, rfl⟩

/-- Claim C7: the size filter rejects — skips without error, leaving the
accumulator untouched — a raw chip of shape (chan, h, w) iff
min(h,w) < min_chip_hw or max(h,w) > max_chip_hw; every chip within
bounds is accepted and passed to the padder (the zero-padded, optionally
normalized chip is appended to the batch buffer).  Stated on `chipStep`,
the shared body of both extraction loops, away from the emission point
(`hroom`) and with a resolvable label and no id request so that no other
skip path interferes. -/
theorem C7_size_filter (p : IterParams) (batch nb chan h w : ℕ)
    (st : AccState) (chip : RawChip) (f : Feature)
    (hs : npShape3 chip = (chan, h, w))
    (hid : p.return_id = false)
    (hlab : p.return_labels = true → (resolveLabel p.classes f).isSome)
    (hroom : st.ct + 1 ≠ batch) :
    (min h w < p.min_chip_hw ∨ max h w > p.max_chip_hw →
       chipStep p batch nb st chip f = .ok (st, none)) ∧
    (p.min_chip_hw ≤ min h w ∧ max h w ≤ p.max_chip_hw →
       ∃ labels', chipStep p batch nb st chip f = .ok
         (⟨st.ct + 1,
           st.inputs ++ [if p.normalize then
               normalizeChip (padChip p.max_chip_hw h w (filled0 chip))
             else padChip p.max_chip_hw h w (filled0 chip)],
           labels', st.ids⟩, none)) := by
  constructor
  · intro hrej
    simp only [chipStep, hs]
    rw [if_pos hrej]
  · rintro ⟨h1, h2⟩
    have hnot : ¬(min h w < p.min_chip_hw ∨ max h w > p.max_chip_hw) := by
      push_neg; exact ⟨h1, h2⟩
    cases hp : p.return_labels with
    | false =>
      refine ⟨st.labels, ?_⟩
      simp only [chipStep, hs]
      rw [if_neg hnot]
      simp [hp, hid, hroom]
    | true =>
      obtain ⟨l, hl⟩ := Option.isSome_iff_exists.mp (hlab hp)
      refine ⟨st.labels ++ [l], ?_⟩
      simp only [chipStep, hs]
      rw [if_neg hnot]
      simp [hp, hl, hid, hroom]

/-- Witness for C7: the 1×2×2 chip `chip22` is accepted under `P0`
(bounds 0 and 2) and its padded form is appended to the buffer. -/
theorem C7_size_filter_witness :
    ∃ labels', chipStep P0 2 1 AccState.empty chip22 fPool = .ok
      (⟨AccState.empty.ct + 1,
        AccState.empty.inputs ++ [if P0.normalize then
            normalizeChip (padChip P0.max_chip_hw 2 2 (filled0 chip22))
          else padChip P0.max_chip_hw 2 2 (filled0 chip22)],
        labels', AccState.empty.ids⟩, none) :=
  (C7_size_filter P0 2 1 1 2 2 AccState.empty chip22 fPool (by decide)
    (by decide) (fun _ => by decide) (by decide)).2 (by decide)

/-- Claim C6: for every accepted chip of shape (chan, h, w) (bounds
`min_chip_hw ≤ min h w` and `max h w ≤ max_chip_hw`), the padded output
has shape exactly (chan, max_chip_hw, max_chip_hw); writing `p` for a
padded axis amount, the content sits after exactly `p / 2` leading zero
entries with `p - p / 2` trailing zeros on that axis: content row `j`
appears at row `(M-h)/2 + j` as `(M-w)/2` zeros, the original row, then
`(M-w) - (M-w)/2` zeros, and every other row is all-zero. -/
theorem C6_padding (mn M chan h w : ℕ) (chip : List (List (List ℚ)))
    (hrect : IsRect chip chan h w)
    (hmn : mn ≤ min h w) (hmax : max h w ≤ M) :
    IsRect (padChip M h w chip) chan M M ∧
    (∀ i : ℕ, i < chan → ∀ j : ℕ, j < h →
      ((padChip M h w chip).getD i []).getD ((M - h) / 2 + j) [] =
        List.replicate ((M - w) / 2) 0 ++ (chip.getD i []).getD j []
          ++ List.replicate ((M - w) - (M - w) / 2) 0) ∧
    (∀ i : ℕ, i < chan → ∀ j : ℕ, j < M →
      (j < (M - h) / 2 ∨ (M - h) / 2 + h ≤ j) →
      ((padChip M h w chip).getD i []).getD j [] = List.replicate M 0) := by
  obtain ⟨hlen, hplanes⟩ := hrect
  have hh : h ≤ M := le_trans (le_max_left h w) hmax
  have hwM : w ≤ M := le_trans (le_max_right h w) hmax
  have hzlen : (M - w) / 2 + w + ((M - w) - (M - w) / 2) = M := by omega
  have hplen : (M - h) / 2 + h + ((M - h) - (M - h) / 2) = M := by omega
  have hpad : ∀ plane : List (List ℚ), plane ∈ chip →
      ∀ r ∈ plane.map (padRow ((M - w) / 2) ((M - w) - (M - w) / 2)),
        r.length = M := by
    intro plane hplane r hr
    obtain ⟨r0, hr0, rfl⟩ := List.mem_map.mp hr
    have hr0w : r0.length = w := (hplanes plane hplane).2 r0 hr0
    simp [padRow, hr0w]
    omega
  refine ⟨⟨by simpa [padChip] using hlen, ?_⟩, ?_, ?_⟩
  · intro pl hpl
    simp only [padChip, List.mem_map] at hpl
    obtain ⟨plane, hplane, rfl⟩ := hpl
    obtain ⟨hplH, _⟩ := hplanes plane hplane
    refine ⟨by simp [hplH]; omega, ?_⟩
    intro r hr
    simp only [List.mem_append] at hr
    rcases hr with (hr | hr) | hr
    · rw [(List.eq_of_mem_replicate hr)]
      simp [hzlen]
    · exact hpad plane hplane r hr
    · rw [(List.eq_of_mem_replicate hr)]
      simp [hzlen]
  · intro i hi j hj
    have hi' : i < chip.length := by rw [hlen]; exact hi
    obtain ⟨hplH, hrows⟩ := hplanes chip[i] (List.getElem_mem hi')
    have hjp : j < chip[i].length := by rw [hplH]; exact hj
    simp only [padChip, List.getD_eq_getElem?_getD, List.getElem?_map,
      List.getElem?_eq_getElem hi', Option.map_some', Option.getD_some]
    rw [List.getElem?_append_left
        (by simp [hplH]; omega : (M - h) / 2 + j <
          (List.replicate ((M - h) / 2)
            (List.replicate ((M - w) / 2 + w + ((M - w) - (M - w) / 2)) (0:ℚ)) ++
            chip[i].map (padRow ((M - w) / 2) ((M - w) - (M - w) / 2))).length),
      List.getElem?_append_right (by simp : (List.replicate ((M - h) / 2)
        (List.replicate ((M - w) / 2 + w + ((M - w) - (M - w) / 2)) (0:ℚ))).length
          ≤ (M - h) / 2 + j)]
    simp only [List.length_replicate, Nat.add_sub_cancel_left,
      List.getElem?_map, List.getElem?_eq_getElem hjp, Option.map_some',
      Option.getD_some]
    simp [padRow, List.getD_eq_getElem?_getD, List.getElem?_eq_getElem hi',
      List.getElem?_eq_getElem hjp]
  · intro i hi j hjM hj
    have hi' : i < chip.length := by rw [hlen]; exact hi
    obtain ⟨hplH, _⟩ := hplanes chip[i] (List.getElem_mem hi')
    simp only [padChip, List.getD_eq_getElem?_getD, List.getElem?_map,
      List.getElem?_eq_getElem hi', Option.map_some', Option.getD_some]
    rcases hj with hj | hj
    · rw [List.getElem?_append_left (by simp [hplH]; omega),
        List.getElem?_append_left (by simp; omega),
        List.getElem?_replicate]
      simp only [hj, if_pos, hzlen]
      simp [hzlen]
    · rw [List.getElem?_append_right (by simp [hplH]; omega)]
      rw [List.getElem?_replicate]
      have : j - (List.replicate ((M - h) / 2)
          (List.replicate ((M - w) / 2 + w + ((M - w) - (M - w) / 2)) (0:ℚ)) ++
          chip[i].map (padRow ((M - w) / 2) ((M - w) - (M - w) / 2))).length
          < (M - h) - (M - h) / 2 := by
        simp [hplH]; omega
      rw [if_pos this]
      simp [hzlen]

/-- Witness for C6: padding the 1×2×1 chip `[[[5],[6]]]` to 4×4. -/
theorem C6_padding_witness :
    IsRect (padChip 4 2 1 [[[(5:ℚ)],[6]]]) 1 4 4 ∧
    ((padChip 4 2 1 [[[(5:ℚ)],[6]]]).getD 0 []).getD ((4 - 2) / 2 + 0) [] =
      List.replicate ((4 - 1) / 2) 0 ++ (([[[(5:ℚ)],[6]]]).getD 0 []).getD 0 []
        ++ List.replicate ((4 - 1) - (4 - 1) / 2) 0 := by
  have h := C6_padding 0 4 1 2 1 [[[(5:ℚ)],[6]]]
    (by constructor <;> simp) (by decide) (by decide)
  exact ⟨h.1, h.2.1 0 (by decide) 0 (by decide)⟩

theorem exceptBind_error {α β : Type} (e : String) (f : α → Except String β) :
    (Except.error e >>= f) = Except.error e := rfl

theorem exceptBind_ok {α β : Type} (a : α) (f : α → Except String β) :
    (Except.ok a >>= f) = f a := rfl

theorem exceptPure {β : Type} (a : β) :
    (pure a : Except String β) = Except.ok a := rfl

/-- The one-hot fold step, abbreviated for the lemmas below. -/
def oneHotStep (labels : List ℕ) (Y : List (List ℚ)) (i : ℕ) :
    Except String (List (List ℚ)) :=
  match labels[i]? with
  | some l => matSetOne Y i l
  | none => .error "IndexError"

theorem oneHot_eq_fold (rows nb_classes : ℕ) (labels : List ℕ) :
    oneHot rows nb_classes labels =
      (List.range rows).foldlM (oneHotStep labels) (npZeros rows nb_classes) :=
  rfl

/-- Characterization of the one-hot fold: starting from any matrix, a
successful run sets entry `labels[i]` of each row `i < n` to 1 and leaves
the remaining rows unchanged. -/
theorem oneHot_fold_spec (labels : List ℕ) (n : ℕ) (Y0 Y : List (List ℚ))
    (h : (List.range n).foldlM (oneHotStep labels) Y0 = Except.ok Y) :
    Y.length = Y0.length ∧
    (∀ i : ℕ, n ≤ i → Y[i]? = Y0[i]?) ∧
    (∀ i : ℕ, i < n → ∃ li row, labels[i]? = some li ∧ Y0[i]? = some row ∧
       li < row.length ∧ Y[i]? = some (row.set li 1)) := by
  induction n generalizing Y with
  | zero =>
    simp only [List.range_zero, List.foldlM_nil, exceptPure] at h
    obtain rfl : Y0 = Y := by simpa using h
    exact ⟨rfl, fun i _ => rfl, fun i hi => absurd hi (by omega)⟩
  | succ n ih =>
    rw [List.range_succ, List.foldlM_append] at h
    rcases h1 : (List.range n).foldlM (oneHotStep labels) Y0 with e | Y1
    · rw [h1, exceptBind_error] at h; simp at h
    · rw [h1, exceptBind_ok] at h
      simp only [List.foldlM_cons, List.foldlM_nil] at h
      have h2 : oneHotStep labels Y1 n = Except.ok Y := by
        rcases h2' : oneHotStep labels Y1 n with e | Y2
        · rw [h2', exceptBind_error] at h; simp at h
        · rw [h2', exceptBind_ok, exceptPure] at h
          exact h
      obtain ⟨ihlen, ihframe, ihset⟩ := ih Y1 h1
      simp only [oneHotStep] at h2
      cases hl : labels[n]? with
      | none => rw [hl] at h2; simp at h2
      | some l =>
        rw [hl] at h2
        simp only [matSetOne] at h2
        cases hrow : Y1[n]? with
        | none => rw [hrow] at h2; simp at h2
        | some row1 =>
          rw [hrow] at h2
          simp only [] at h2
          by_cases hlt : l < row1.length
          · rw [if_pos hlt] at h2
            obtain rfl : Y1.set n (row1.set l 1) = Y := by simpa using h2
            have hn1 : n < Y1.length := List.getElem?_eq_some_iff.mp hrow |>.1
            refine ⟨by simpa using ihlen, ?_, ?_⟩
            · intro i hi
              rw [List.getElem?_set_ne (by omega : n ≠ i)]
              exact ihframe i (by omega)
            · intro i hi
              rcases Nat.lt_or_ge i n with hin | hin
              · obtain ⟨li, row, hli, hrow0, hlen, hYi⟩ := ihset i hin
                exact ⟨li, row, hli, hrow0, hlen, by
                  rw [List.getElem?_set_ne (by omega : n ≠ i)]; exact hYi⟩
              · have hin' : i = n := by omega
                rw [hin']
                refine ⟨l, row1, hl, ?_, hlt, ?_⟩
                · rw [← ihframe n (le_refl n)]; exact hrow
                · rw [List.getElem?_set_self hn1]
          · rw [if_neg hlt] at h2; simp at h2

/-- Existence direction: the fold succeeds whenever every row index below
`n` has an in-range label. -/
theorem oneHot_fold_ok (labels : List ℕ) (n : ℕ) (Y0 : List (List ℚ))
    (hok : ∀ i : ℕ, i < n → ∃ li row, labels[i]? = some li ∧
      Y0[i]? = some row ∧ li < row.length) :
    ∃ Y, (List.range n).foldlM (oneHotStep labels) Y0 = Except.ok Y := by
  induction n with
  | zero => exact ⟨Y0, by simp [exceptPure]⟩
  | succ n ih =>
    obtain ⟨Y1, hY1⟩ := ih (fun i hi => hok i (by omega))
    obtain ⟨_, hframe, _⟩ := oneHot_fold_spec labels n Y0 Y1 hY1
    obtain ⟨li, row, hli, hrow, hlen⟩ := hok n (by omega)
    refine ⟨Y1.set n (row.set li 1), ?_⟩
    rw [List.range_succ, List.foldlM_append, hY1, exceptBind_ok]
    simp only [List.foldlM_cons, List.foldlM_nil, oneHotStep, hli, matSetOne]
    rw [hframe n (le_refl n), hrow]
    simp [hlen, exceptBind_ok, exceptPure]

theorem sum_replicate_set (nb li : ℕ) (hli : li < nb) :
    ((List.replicate nb (0:ℚ)).set li 1).sum = 1 := by
  induction nb generalizing li with
  | zero => omega
  | succ nb ih =>
    cases li with
    | zero => simp [List.replicate_succ, List.sum_replicate]
    | succ li =>
      rw [List.replicate_succ]
      simp only [List.set_cons_succ, List.sum_cons, ih li (by omega)]
      norm_num

theorem getD_replicate_set (nb li j : ℕ) (hli : li < nb) (hj : j < nb) :
    ((List.replicate nb (0:ℚ)).set li 1).getD j 0 =
      if j = li then 1 else 0 := by
  rw [List.getD_eq_getElem?_getD, List.getElem?_set]
  rcases eq_or_ne j li with rfl | hne
  · simp [hli]
  · rw [if_neg (by omega)]
    simp [List.getElem?_replicate, hj, hne]

/-- Claim C8: a successfully emitted one-hot label matrix has `rows`
rows of `nb` entries each; row `i` is the all-zero row with a single 1
written at the recorded class index `labels[i]` (which is in range), so
each row sums to exactly 1 and its nonzero column equals that label. -/
theorem C8_one_hot (rows nb : ℕ) (labels : List ℕ) (Y : List (List ℚ))
    (h : oneHot rows nb labels = .ok Y) :
    Y.length = rows ∧
    (∀ row ∈ Y, row.length = nb) ∧
    (∀ i : ℕ, i < rows → ∃ li, labels[i]? = some li ∧ li < nb ∧
      Y[i]? = some ((List.replicate nb (0:ℚ)).set li 1) ∧
      (Y.getD i []).sum = 1 ∧
      ∀ j : ℕ, j < nb → (Y.getD i []).getD j 0 = if j = li then 1 else 0) := by
  rw [oneHot_eq_fold] at h
  obtain ⟨hlen, hframe, hset⟩ := oneHot_fold_spec labels rows _ Y h
  have hYlen : Y.length = rows := by simpa [npZeros] using hlen
  have hchar : ∀ i : ℕ, i < rows → ∃ li, labels[i]? = some li ∧ li < nb ∧
      Y[i]? = some ((List.replicate nb (0:ℚ)).set li 1) := by
    intro i hi
    obtain ⟨li, row, hli, hrow0, hliLen, hYi⟩ := hset i hi
    have : row = List.replicate nb (0:ℚ) := by
      have := hrow0
      rw [npZeros, List.getElem?_replicate, if_pos hi] at this
      exact (Option.some.inj this).symm
    subst this
    exact ⟨li, hli, by simpa using hliLen, hYi⟩
  refine ⟨hYlen, ?_, ?_⟩
  · intro row hrow
    obtain ⟨i, hi, hYi⟩ := List.getElem_of_mem hrow
    obtain ⟨li, _, _, hchar_i⟩ := hchar i (by omega)
    rw [List.getElem?_eq_getElem hi, hYi] at hchar_i
    rw [Option.some.inj hchar_i]
    simp
  · intro i hi
    obtain ⟨li, hli, hlt, hYi⟩ := hchar i hi
    have hgetD : Y.getD i [] = (List.replicate nb (0:ℚ)).set li 1 := by
      rw [List.getD_eq_getElem?_getD, hYi, Option.getD_some]
    exact ⟨li, hli, hlt, hYi, by rw [hgetD]; exact sum_replicate_set nb li hlt,
      fun j hj => by rw [hgetD]; exact getD_replicate_set nb li j hlt hj⟩

/-- Witness for C8 at `oneHot 2 2 [1, 0]`. -/
theorem C8_one_hot_witness :
    ([[(0:ℚ), 1], [1, 0]] : List (List ℚ)).length = 2 ∧
    ∃ li, ([1, 0] : List ℕ)[0]? = some li ∧ li < 2 ∧
      ([[(0:ℚ), 1], [1, 0]] : List (List ℚ))[0]? =
        some ((List.replicate 2 (0:ℚ)).set li 1) ∧
      (([[(0:ℚ), 1], [1, 0]] : List (List ℚ)).getD 0 []).sum = 1 ∧
      ∀ j : ℕ, j < 2 →
        ((([[(0:ℚ), 1], [1, 0]] : List (List ℚ)).getD 0 []).getD j 0 =
          if j = li then 1 else 0) := by
  have h := C8_one_hot 2 2 [1, 0] [[0, 1], [1, 0]] (by rfl)
  exact ⟨h.1, h.2.2 0 (by decide)⟩

/-! ## Lemmas for `getIterData.next` -/

theorem optionBind_some {α β : Type} (a : α) (f : α → Option β) :
    (some a >>= f) = f a := rfl

theorem optionBind_none {α β : Type} (f : α → Option β) :
    ((none : Option α) >>= f) = none := rfl

theorem optionPure {α : Type} (a : α) : (pure a : Option α) = some a := rfl

theorem mapM_pullGen_eq_none {α : Type} (gens : List (String × List (List α))) :
    gens.mapM pullGen = none ↔ ∃ g ∈ gens, g.2 = [] := by
  induction gens with
  | nil =>
    rw [List.mapM_nil, optionPure]
    simp
  | cons g rest ih =>
    rw [List.mapM_cons]
    rcases g with ⟨name, batches⟩
    cases batches with
    | nil =>
      rw [show pullGen (name, ([] : List (List α))) = none from rfl,
        optionBind_none]
      simp
    | cons b bs =>
      rw [show pullGen (name, b :: bs) = some (b, (name, bs)) from rfl,
        optionBind_some]
      cases hrest : rest.mapM pullGen with
      | none =>
        rw [optionBind_none]
        obtain ⟨g, hg, hg2⟩ := ih.mp hrest
        exact iff_of_true rfl ⟨g, by simp [hg], hg2⟩
      | some pulls =>
        rw [optionBind_some, optionPure]
        simp only [reduceCtorEq, false_iff]
        push_neg
        intro g hg
        rcases List.mem_cons.mp hg with rfl | hgr
        · simp
        · intro hcon
          have hcon2 : rest.mapM pullGen = none := ih.mpr ⟨g, hgr, hcon⟩
          rw [hrest] at hcon2
          exact absurd hcon2 (by simp)

theorem mapM_pullGen_eq_some {α : Type} (gens : List (String × List (List α)))
    (pulls : List (List α × (String × List (List α))))
    (h : gens.mapM pullGen = some pulls) :
    pulls.map Prod.fst = gens.map (fun g => g.2.headD []) ∧
    pulls.map Prod.snd = gens.map (fun g => (g.1, g.2.tail)) := by
  induction gens generalizing pulls with
  | nil =>
    rw [List.mapM_nil, optionPure] at h
    obtain rfl : [] = pulls := Option.some.inj h
    simp
  | cons g rest ih =>
    rw [List.mapM_cons] at h
    rcases g with ⟨name, batches⟩
    cases batches with
    | nil =>
      rw [show pullGen (name, ([] : List (List α))) = none from rfl,
        optionBind_none] at h
      simp at h
    | cons b bs =>
      rw [show pullGen (name, b :: bs) = some (b, (name, bs)) from rfl,
        optionBind_some] at h
      cases hrest : rest.mapM pullGen with
      | none => rw [hrest, optionBind_none] at h; simp at h
      | some pulls' =>
        rw [hrest, optionBind_some, optionPure] at h
        obtain rfl : (b, (name, bs)) :: pulls' = pulls := Option.some.inj h
        obtain ⟨ih1, ih2⟩ := ih pulls' hrest
        simp [ih1, ih2]

theorem filterMap_getElem?_eq_map {α : Type} (l : List α) (d : α) (p : List ℕ)
    (hp : ∀ i ∈ p, i < l.length) :
    p.filterMap (fun i => l[i]?) = p.map (fun i => l.getD i d) := by
  induction p with
  | nil => simp
  | cons i p ih =>
    have hi := hp i (by simp)
    rw [List.filterMap_cons, List.map_cons, List.getElem?_eq_getElem hi]
    rw [ih fun j hj => hp j (by simp [hj])]
    simp [List.getD_eq_getElem?_getD, List.getElem?_eq_getElem hi]

theorem map_getD_range {α : Type} (l : List α) (d : α) :
    (List.range l.length).map (fun i => l.getD i d) = l := by
  induction l with
  | nil => simp
  | cons a t ih =>
    rw [List.length_cons, List.range_succ_eq_map, List.map_cons, List.map_map]
    have hfun : ((fun i => (a :: t).getD i d) ∘ Nat.succ) =
        fun i => t.getD i d := by
      funext i; rfl
    rw [hfun, ih]
    rfl

/-- A shuffle whose index list is a permutation of `range len` permutes
the rows. -/
theorem applyPerm_of_perm {α : Type} (perm : List ℕ) (l : List α)
    (h : perm.Perm (List.range l.length)) : (applyPerm perm l).Perm l := by
  cases l with
  | nil =>
    have : perm = [] := List.Perm.eq_nil (by simpa using h)
    simp [applyPerm, this]
  | cons a t =>
    have hmem : ∀ i ∈ perm, i < (a :: t).length := by
      intro i hi
      have := h.mem_iff.mp hi
      simpa [List.mem_range] using this
    rw [applyPerm, filterMap_getElem?_eq_map (a :: t) a perm hmem]
    have h1 : (perm.map fun i => (a :: t).getD i a).Perm
        ((List.range (a :: t).length).map fun i => (a :: t).getD i a) :=
      h.map _
    rw [map_getD_range (a :: t) a] at h1
    exact h1

theorem nextIterate_isSome_iff {α : Type} (perm : List ℕ) (k : ℕ) :
    ∀ gens : List (String × List (List α)), gens ≠ [] →
      ((nextIterate perm k gens).isSome ↔ ∀ g ∈ gens, k ≤ g.2.length) := by
  induction k with
  | zero => intro gens _; simp [nextIterate]
  | succ k ih =>
    intro gens hne
    rw [nextIterate]
    by_cases hempty : ∃ g ∈ gens, g.2 = []
    · rw [show getIterData_next perm gens = none by
        rw [getIterData_next, (mapM_pullGen_eq_none gens).mpr hempty]]
      obtain ⟨g, hg, hg2⟩ := hempty
      simp only [Option.isSome_none, Bool.false_eq_true, false_iff]
      push_neg
      exact ⟨g, hg, by simp [hg2]⟩
    · have hnn : gens.mapM pullGen ≠ none := by
        rw [Ne, mapM_pullGen_eq_none]; exact hempty
      obtain ⟨pulls, hpulls⟩ := Option.ne_none_iff_exists'.mp hnn
      rw [show getIterData_next perm gens =
          some (applyPerm perm (pulls.map Prod.fst).flatten, pulls.map Prod.snd) by
        rw [getIterData_next, hpulls]]
      obtain ⟨-, h2⟩ := mapM_pullGen_eq_some gens pulls hpulls
      have hne' : pulls.map Prod.snd ≠ [] := by
        rw [h2]
        simpa using hne
      rw [ih (pulls.map Prod.snd) hne', h2]
      push_neg at hempty
      constructor
      · intro hall g hg
        have := hall (g.1, g.2.tail) (List.mem_map.mpr ⟨g, hg, rfl⟩)
        have hlen : g.2 ≠ [] := hempty g hg
        have : k ≤ g.2.length - 1 := by simpa using this
        have : 1 ≤ g.2.length := by
          cases hh : g.2 with
          | nil => exact absurd hh hlen
          | cons x xs => simp
        omega
      · intro hall g' hg'
        obtain ⟨g, hg, rfl⟩ := List.mem_map.mp hg'
        have := hall g hg
        simp only [List.length_tail]
        omega

/-- Claim C3: `getIterData.next` pulls exactly one batch from every
per-image generator and returns their row-wise concatenation shuffled
(for a shuffle index list that is a permutation, the returned rows are a
permutation of the concatenation); it raises `StopIteration` (`none`)
as soon as any single generator is exhausted, so with at least one
generator the number of `next` calls that succeed is exactly the minimum
number of batches any one per-image pipeline can supply. -/
theorem C3_next_merge {α : Type} (perm : List ℕ)
    (gens : List (String × List (List α))) :
    (getIterData_next perm gens = none ↔ ∃ g ∈ gens, g.2 = []) ∧
    (∀ rows gens', getIterData_next perm gens = some (rows, gens') →
      gens' = gens.map (fun g => (g.1, g.2.tail)) ∧
      rows = applyPerm perm ((gens.map fun g => g.2.headD []).flatten) ∧
      (perm.Perm (List.range ((gens.map fun g => g.2.headD []).flatten).length) →
        rows.Perm ((gens.map fun g => g.2.headD []).flatten))) ∧
    (gens ≠ [] → ∀ k : ℕ,
      ((nextIterate perm k gens).isSome ↔ ∀ g ∈ gens, k ≤ g.2.length) ∧
      (((∀ g ∈ gens, k ≤ g.2.length) ∧ (∃ g ∈ gens, g.2.length = k)) →
        (nextIterate perm k gens).isSome ∧ nextIterate perm (k + 1) gens = none)) := by
  refine ⟨?_, ?_, ?_⟩
  · rw [getIterData_next]
    cases hm : gens.mapM pullGen with
    | none => simpa using (mapM_pullGen_eq_none gens).mp hm
    | some pulls =>
      simp only [reduceCtorEq, false_iff]
      intro hcon
      have := (mapM_pullGen_eq_none gens).mpr hcon
      rw [hm] at this
      exact absurd this (by simp)
  · intro rows gens' hsome
    rw [getIterData_next] at hsome
    cases hm : gens.mapM pullGen with
    | none => rw [hm] at hsome; simp at hsome
    | some pulls =>
      rw [hm] at hsome
      obtain ⟨h1, h2⟩ := mapM_pullGen_eq_some gens pulls hm
      obtain ⟨hrows, hgens'⟩ : rows = applyPerm perm (pulls.map Prod.fst).flatten ∧
          gens' = pulls.map Prod.snd := by
        have := Option.some.inj hsome
        exact ⟨(congrArg Prod.fst this).symm, (congrArg Prod.snd this).symm⟩
      subst hrows hgens'
      rw [h1, h2]
      exact ⟨rfl, rfl, fun hp => applyPerm_of_perm perm _ hp⟩
  · intro hne k
    refine ⟨nextIterate_isSome_iff perm k gens hne, fun ⟨hall, g, hg, hglen⟩ => ?_⟩
    refine ⟨(nextIterate_isSome_iff perm k gens hne).mpr hall, ?_⟩
    have : ¬ (nextIterate perm (k + 1) gens).isSome := by
      rw [nextIterate_isSome_iff perm (k + 1) gens hne]
      push_neg
      exact ⟨g, hg, by omega⟩
    simpa [Option.not_isSome_iff_eq_none] using this

/-- Witness for C3 on two generators with 2 and 2 batches left. -/
theorem C3_next_merge_witness :
    ([("A", [[5]]), ("B", [[6]])] : List (String × List (List ℕ))) =
      ([("A", [[1, 2], [5]]), ("B", [[3, 4], [6]])] : List (String × List (List ℕ))).map
        (fun g => (g.1, g.2.tail)) ∧
    ([1, 2, 3, 4] : List ℕ).Perm
      ((([("A", [[1, 2], [5]]), ("B", [[3, 4], [6]])] :
        List (String × List (List ℕ))).map fun g => g.2.headD []).flatten) ∧
    (nextIterate [0, 1, 2, 3] 2
      ([("A", [[1, 2], [5]]), ("B", [[3, 4], [6]])] :
        List (String × List (List ℕ)))).isSome ∧
    nextIterate [0, 1, 2, 3] 3
      ([("A", [[1, 2], [5]]), ("B", [[3, 4], [6]])] :
        List (String × List (List ℕ))) = none := by
  have h := C3_next_merge [0, 1, 2, 3]
    ([("A", [[1, 2], [5]]), ("B", [[3, 4], [6]])] : List (String × List (List ℕ)))
  have h2 := h.2.1 [1, 2, 3, 4] [("A", [[5]]), ("B", [[6]])] (by decide)
  have h3 := (h.2.2 (by decide) 2).2 ⟨by decide, ("A", [[1, 2], [5]]), by decide, by decide⟩
  exact ⟨h2.1, by
    have := h2.2.2 (by decide)
    simpa using this, h3.1, by
    have h4 := (h.2.2 (by decide) 3).1
    have : ¬ ∀ g ∈ ([("A", [[1, 2], [5]]), ("B", [[3, 4], [6]])] :
        List (String × List (List ℕ))), 3 ≤ g.2.length := by decide
    rw [← h4] at this
    simpa [Option.not_isSome_iff_eq_none] using this⟩

/-! ## Lemmas for the accumulator loops -/

theorem clsIndex_lt (classes : List String) (label : String) (i : ℕ)
    (h : clsIndex classes label = some i) : i < classes.length := by
  unfold clsIndex at h
  induction classes generalizing i with
  | nil => simp at h
  | cons c cs ih =>
    rw [List.indexOf?_cons] at h
    split at h
    · obtain rfl : 0 = i := Option.some.inj h
      simp
    · cases hm : cs.indexOf? label with
      | none => rw [hm] at h; simp at h
      | some j =>
        rw [hm] at h
        obtain rfl : j + 1 = i := by simpa using h
        have := ih j hm
        simp only [List.length_cons]
        omega

theorem resolveLabel_lt (classes : List String) (f : Feature) (l : ℕ)
    (h : resolveLabel classes f = some l) : l < classes.length := by
  unfold resolveLabel at h
  cases hlk : lookupProp f "class_name" with
  | none => rw [hlk] at h; simp at h
  | some v =>
    rw [hlk] at h
    cases v with
    | none => simp at h
    | some label => exact clsIndex_lt classes label l (by simpa using h)

theorem oneHot_length (rows nb : ℕ) (labels : List ℕ) (Y : List (List ℚ))
    (h : oneHot rows nb labels = .ok Y) : Y.length = rows := by
  rw [oneHot_eq_fold] at h
  have := (oneHot_fold_spec labels rows _ Y h).1
  simpa [npZeros] using this

theorem oneHot_exists (nb : ℕ) (labels : List ℕ)
    (hl : ∀ l ∈ labels, l < nb) :
    ∃ Y, oneHot labels.length nb labels = .ok Y := by
  rw [oneHot_eq_fold]
  apply oneHot_fold_ok
  intro i hi
  refine ⟨labels[i], List.replicate nb 0, List.getElem?_eq_getElem hi, ?_, ?_⟩
  · rw [npZeros, List.getElem?_replicate, if_pos hi]
  · simpa using hl labels[i] (List.getElem_mem hi)

theorem emitBatch_spec (rid rlab : Bool) (nb rows : ℕ) (st : AccState)
    (b : Batch) (h : emitBatch rid rlab nb rows st = .ok b) :
    b.X = st.inputs ∧
    (rlab = false → b.Y = none) ∧
    (rlab = true → ∃ Y, b.Y = some Y ∧ oneHot rows nb st.labels = .ok Y) := by
  unfold emitBatch at h
  cases rlab with
  | false =>
    rw [if_neg (by simp)] at h
    obtain rfl : _ = b := Except.ok.inj h
    exact ⟨rfl, fun _ => rfl, by simp⟩
  | true =>
    rw [if_pos rfl] at h
    cases hoh : oneHot rows nb st.labels with
    | error e => rw [hoh] at h; simp at h
    | ok Y =>
      rw [hoh] at h
      obtain rfl : _ = b := Except.ok.inj h
      exact ⟨rfl, by simp, fun _ => ⟨Y, rfl, rfl⟩⟩

/-- The central step lemma: one `chipStep` preserves the accumulator
invariant, and any batch it emits has exactly `batch` rows with a
`batch`-row label matrix when labels are requested. -/
theorem chipStep_inv (p : IterParams) (batch nb : ℕ) (st st' : AccState)
    (chip : RawChip) (f : Feature) (b? : Option Batch)
    (hb : 0 < batch) (hnb : p.classes.length ≤ nb)
    (hstep : chipStep p batch nb st chip f = .ok (st', b?))
    (hinv : AccInv batch nb p.return_labels st) :
    AccInv batch nb p.return_labels st' ∧
    ∀ b ∈ b?, b.X.length = batch ∧
      (p.return_labels = true → ∃ Y, b.Y = some Y ∧ Y.length = batch) := by
  obtain ⟨hlen, hct, hlab, hbound⟩ := hinv
  rcases hsh : npShape3 chip with ⟨chan, h, w⟩
  unfold chipStep at hstep
  rw [hsh] at hstep
  simp only [] at hstep
  split at hstep
  · obtain ⟨rfl, rfl⟩ := Prod.mk.inj (Except.ok.inj hstep)
    exact ⟨⟨hlen, hct, hlab, hbound⟩, by simp⟩
  · split at hstep
    · obtain ⟨rfl, rfl⟩ := Prod.mk.inj (Except.ok.inj hstep)
      exact ⟨⟨hlen, hct, hlab, hbound⟩, by simp⟩
    · rename_i labels' hlabels'
      have hlab' : (p.return_labels = false ∧ labels' = st.labels) ∨
          (p.return_labels = true ∧ ∃ l, resolveLabel p.classes f = some l ∧
            labels' = st.labels ++ [l]) := by
        cases hpl : p.return_labels with
        | false =>
          rw [hpl, if_neg (by simp)] at hlabels'
          exact Or.inl ⟨rfl, (Option.some.inj hlabels').symm⟩
        | true =>
          rw [hpl, if_pos rfl] at hlabels'
          cases hres : resolveLabel p.classes f with
          | none => rw [hres] at hlabels'; simp at hlabels'
          | some l =>
            rw [hres] at hlabels'
            exact Or.inr ⟨rfl, l, rfl, (Option.some.inj hlabels').symm⟩
      have hlabLen : p.return_labels = true → labels'.length = st.ct + 1 := by
        intro hpl
        rcases hlab' with ⟨hf, _⟩ | ⟨-, l, -, rfl⟩
        · rw [hpl] at hf; exact absurd hf (by simp)
        · simp [hlab hpl]
      have hlabBound : ∀ l ∈ labels', l < nb := by
        rcases hlab' with ⟨-, rfl⟩ | ⟨-, l, hres, rfl⟩
        · exact hbound
        · intro x hx
          rcases List.mem_append.mp hx with hx | hx
          · exact hbound x hx
          · obtain rfl : x = l := by simpa using hx
            exact lt_of_lt_of_le (resolveLabel_lt p.classes f x hres) hnb
      split at hstep
      · exact absurd hstep (by simp)
      · rename_i ids' hids'
        split at hstep
        · rename_i hfull
          split at hstep
          · exact absurd hstep (by simp)
          · rename_i b hemit
            obtain ⟨rfl, rfl⟩ := Prod.mk.inj (Except.ok.inj hstep)
            refine ⟨⟨rfl, hb, fun _ => rfl, by simp [AccState.empty]⟩, ?_⟩
            intro b' hb'
            obtain rfl : b = b' := by simpa using hb'
            obtain ⟨hbX, -, hbY⟩ := emitBatch_spec _ _ _ _ _ _ hemit
            constructor
            · rw [hbX]
              simp only [List.length_append, List.length_cons,
                List.length_nil, hlen]
              simpa using hfull
            · intro hpl
              obtain ⟨Y, hY, hoh⟩ := hbY hpl
              exact ⟨Y, hY, oneHot_length _ _ _ _ hoh⟩
        · rename_i hnotfull
          obtain ⟨rfl, rfl⟩ := Prod.mk.inj (Except.ok.inj hstep)
          refine ⟨⟨?_, ?_, hlabLen, hlabBound⟩, by simp⟩
          · simp [hlen]
          · simp only []
            omega

/-- `getIterStep` preserves the invariant (a `None` chip errors, so a
successful step always goes through `chipStep`). -/
theorem getIterStep_inv (p : IterParams) (st st' : AccState) (item : VecItem)
    (b? : Option Batch) (hb : 0 < p.batch_size)
    (hnb : p.classes.length ≤ p.nb_classes)
    (hstep : getIterStep p st item = .ok (st', b?))
    (hinv : AccInv p.batch_size p.nb_classes p.return_labels st) :
    AccInv p.batch_size p.nb_classes p.return_labels st' ∧
    ∀ b ∈ b?, b.X.length = p.batch_size ∧
      (p.return_labels = true → ∃ Y, b.Y = some Y ∧ Y.length = p.batch_size) := by
  cases hc : item.chip with
  | none => rw [getIterStep, hc] at hstep; simp at hstep
  | some chip =>
    rw [getIterStep, hc] at hstep
    exact chipStep_inv p _ _ st st' chip item.feature b? hb hnb hstep hinv

/-- `yieldStep` preserves the invariant (a `None` chip is skipped). -/
theorem yieldStep_inv (p : IterParams) (batch : ℕ) (st st' : AccState)
    (item : VecItem) (b? : Option Batch) (hb : 0 < batch)
    (hstep : yieldStep p batch st item = .ok (st', b?))
    (hinv : AccInv batch p.classes.length p.return_labels st) :
    AccInv batch p.classes.length p.return_labels st' ∧
    ∀ b ∈ b?, b.X.length = batch ∧
      (p.return_labels = true → ∃ Y, b.Y = some Y ∧ Y.length = batch) := by
  cases hc : item.chip with
  | none =>
    rw [yieldStep, hc] at hstep
    obtain ⟨rfl, rfl⟩ := Prod.mk.inj (Except.ok.inj hstep)
    exact ⟨hinv, by simp⟩
  | some chip =>
    rw [yieldStep, hc] at hstep
    exact chipStep_inv p _ _ st st' chip item.feature b? hb (le_refl _) hstep hinv

/-- Any state/batch property preserved by the step function is an
invariant of a whole loop run. -/
theorem runLoop_inv {σstep : AccState → VecItem → Except String (AccState × Option Batch)}
    (P : AccState → Prop) (Q : Batch → Prop)
    (hstep : ∀ st item st' b?, P st → σstep st item = .ok (st', b?) →
      P st' ∧ ∀ b ∈ b?, Q b) :
    ∀ (items : List VecItem) (st : AccState) (bs : List Batch) (stf : AccState),
      P st → runLoop σstep st items = .ok (bs, stf) →
      P stf ∧ ∀ b ∈ bs, Q b := by
  intro items
  induction items with
  | nil =>
    intro st bs stf hP h
    rw [runLoop] at h
    obtain ⟨rfl, rfl⟩ := Prod.mk.inj (Except.ok.inj h)
    exact ⟨hP, by simp⟩
  | cons item rest ih =>
    intro st bs stf hP h
    rw [runLoop] at h
    cases hs : σstep st item with
    | error e => rw [hs] at h; simp at h
    | ok r =>
      rcases r with ⟨st1, b?⟩
      rw [hs] at h
      simp only [] at h
      cases hr : runLoop σstep st1 rest with
      | error e => rw [hr] at h; simp at h
      | ok r2 =>
        rcases r2 with ⟨bs1, stf1⟩
        rw [hr] at h
        simp only [] at h
        obtain ⟨rfl, rfl⟩ := Prod.mk.inj (Except.ok.inj h)
        obtain ⟨hP1, hQ1⟩ := hstep st item st1 b? hP hs
        obtain ⟨hPf, hQf⟩ := ih st1 bs1 stf1 hP1 hr
        refine ⟨hPf, ?_⟩
        intro b hbmem
        rcases List.mem_append.mp hbmem with hbmem | hbmem
        · cases b? with
          | none => simp at hbmem
          | some v =>
            obtain rfl : b = v := by simpa using hbmem
            exact hQ1 b (by simp)
        · exact hQf b hbmem

/-- Counterexample to claim C4 as stated: `yield_from_img_id` with quota 2
over a stream holding exactly one accepted chip ends with one item still
buffered (`ct = 1`) yet emits no final partial batch — the generator
returns with the leftovers discarded (no trailing emission exists in
lines 405–462). -/
theorem C4_counterexample :
    yield_from_img_id P0 2 [item0] =
      .ok ([], ⟨1, [[[[(1:ℚ), 2], [0, 4]]]], [0], []⟩) := rfl

/-- Claim C4, amended: `get_iter_data` does emit one final batch of the
buffered leftovers (0 < count < batch size, label matrix dimensioned to
that count) and emits nothing further when zero items remain; but
`getIterData.yield_from_img_id` never emits a partial batch — every batch
it yields has exactly `batch` rows, and end-of-stream leftovers are
discarded. -/
theorem C4_final_partial_batch (p : IterParams) (batch : ℕ)
    (items : List VecItem) (hb : 0 < p.batch_size)
    (hcls : p.classes.length ≤ p.nb_classes) (hbatch : 0 < batch) :
    (∀ bs0 stf, runLoop (getIterStep p) AccState.empty items = .ok (bs0, stf) →
      (stf.inputs.length = 0 → get_iter_data p items = .ok bs0) ∧
      (0 < stf.inputs.length → ∃ b, get_iter_data p items = .ok (bs0 ++ [b]) ∧
        b.X = stf.inputs ∧ 0 < b.X.length ∧ b.X.length < p.batch_size ∧
        (p.return_labels = true → ∃ Y, b.Y = some Y ∧ Y.length = b.X.length))) ∧
    (∀ bs stf, yield_from_img_id p batch items = .ok (bs, stf) →
      ∀ b ∈ bs, b.X.length = batch) := by
  constructor
  · intro bs0 stf hrun
    have hInv0 : AccInv p.batch_size p.nb_classes p.return_labels AccState.empty :=
      ⟨rfl, hb, fun _ => rfl, by simp [AccState.empty]⟩
    obtain ⟨hPf, -⟩ := runLoop_inv
      (AccInv p.batch_size p.nb_classes p.return_labels)
      (fun b => b.X.length = p.batch_size ∧
        (p.return_labels = true → ∃ Y, b.Y = some Y ∧ Y.length = p.batch_size))
      (fun st item st' b? hP hs => getIterStep_inv p st st' item b? hb hcls hs hP)
      items AccState.empty bs0 stf hInv0 hrun
    obtain ⟨hflen, hfct, hflab, hfbound⟩ := hPf
    constructor
    · intro hzero
      rw [get_iter_data, hrun]
      simp only []
      rw [if_neg (by omega)]
    · intro hpos
      cases hpl : p.return_labels with
      | false =>
        refine ⟨⟨stf.inputs, if p.return_id then some stf.ids else none, none⟩,
          ?_, rfl, hpos, by show stf.inputs.length < p.batch_size; omega,
          by simp [hpl]⟩
        rw [get_iter_data, hrun]
        simp only []
        rw [if_pos (by omega)]
        rw [show emitBatch p.return_id p.return_labels p.nb_classes
            stf.labels.length stf = .ok ⟨stf.inputs,
              if p.return_id then some stf.ids else none, none⟩ by
          rw [emitBatch, hpl, if_neg (by simp)]]
      | true =>
        obtain ⟨Y, hY⟩ := oneHot_exists p.nb_classes stf.labels hfbound
        have hYlen : Y.length = stf.inputs.length := by
          rw [oneHot_length _ _ _ _ hY, hflab hpl, hflen]
        refine ⟨⟨stf.inputs, if p.return_id then some stf.ids else none, some Y⟩,
          ?_, rfl, hpos, by show stf.inputs.length < p.batch_size; omega,
          fun _ => ⟨Y, rfl, hYlen⟩⟩
        rw [get_iter_data, hrun]
        simp only []
        rw [if_pos (by omega)]
        rw [show emitBatch p.return_id p.return_labels p.nb_classes
            stf.labels.length stf = .ok ⟨stf.inputs,
              if p.return_id then some stf.ids else none, some Y⟩ by
          rw [emitBatch, hpl, if_pos rfl, hY]]
  · intro bs stf hrun
    have hInv0 : AccInv batch p.classes.length p.return_labels AccState.empty :=
      ⟨rfl, hbatch, fun _ => rfl, by simp [AccState.empty]⟩
    obtain ⟨-, hQ⟩ := runLoop_inv
      (AccInv batch p.classes.length p.return_labels)
      (fun b => b.X.length = batch ∧
        (p.return_labels = true → ∃ Y, b.Y = some Y ∧ Y.length = batch))
      (fun st item st' b? hP hs => yieldStep_inv p batch st st' item b? hbatch hs hP)
      items AccState.empty bs stf hInv0 hrun
    exact fun b hbmem => (hQ b hbmem).1

/-- Witness for C4: over a one-item stream under `P0`, `get_iter_data`
emits exactly one final partial batch of size 1. -/
theorem C4_final_partial_batch_witness :
    ∃ b, get_iter_data P0 [item0] = .ok ([] ++ [b]) ∧
      b.X = [[[[(1:ℚ), 2], [0, 4]]]] ∧ 0 < b.X.length ∧
      b.X.length < P0.batch_size ∧
      (P0.return_labels = true → ∃ Y, b.Y = some Y ∧ Y.length = b.X.length) := by
  have h := (C4_final_partial_batch P0 2 [item0] (by decide) (by decide)
    (by decide)).1 [] ⟨1, [[[[(1:ℚ), 2], [0, 4]]]], [0], []⟩ rfl
  exact h.2 (by decide)

/-! ## Lemmas for `getIterData.__init__` -/

theorem empiricalProps_pos (features : List Feature) (B : ℕ) :
    ∀ kv ∈ empiricalProps features B, 0 < kv.2 := by
  intro kv hkv
  obtain ⟨id, -, heq⟩ := List.mem_filterMap.mp hkv
  cases hgp : get_proportion features "image_id" id with
  | none => rw [hgp] at heq; simp at heq
  | some q =>
    rw [hgp] at heq
    simp only [] at heq
    split at heq
    · rename_i hpos
      obtain rfl : _ = kv := Option.some.inj heq
      exact hpos
    · simp at heq

theorem initChipGens_ok (img_ids : List String) (props : List (String × ℤ))
    (h : ∀ id ∈ img_ids, (assocLookup props id).isSome) :
    initChipGens img_ids props =
      .ok (img_ids.map fun id => (id, (assocLookup props id).getD 0)) := by
  induction img_ids with
  | nil => rfl
  | cons id rest ih =>
    rw [initChipGens, List.mapM_cons]
    obtain ⟨q, hq⟩ := Option.isSome_iff_exists.mp (h id (by simp))
    rw [hq]
    simp only []
    rw [exceptBind_ok]
    have ihr := ih fun i hi => h i (by simp [hi])
    rw [initChipGens] at ihr
    rw [ihr, exceptBind_ok, exceptPure]
    rw [List.map_cons, hq]
    rfl

theorem initChipGens_err (img_ids : List String) (props : List (String × ℤ))
    (h : ∃ id ∈ img_ids, assocLookup props id = none) :
    initChipGens img_ids props = .error "KeyError" := by
  induction img_ids with
  | nil => simp at h
  | cons id rest ih =>
    rw [initChipGens, List.mapM_cons]
    cases hq : assocLookup props id with
    | none =>
      simp only []
      rw [exceptBind_error]
    | some q =>
      simp only []
      rw [exceptBind_ok]
      have hrest : ∃ i ∈ rest, assocLookup props i = none := by
        obtain ⟨i, hi, hnone⟩ := h
        rcases List.mem_cons.mp hi with rfl | hir
        · rw [hq] at hnone; exact absurd hnone (by simp)
        · exact ⟨i, hir, hnone⟩
      have ihr := ih hrest
      rw [initChipGens] at ihr
      rw [ihr, exceptBind_error]

/-- Counterexample to claim C2 as stated: with batch size 2 and a feature
collection where image "A" carries 2 of 3 features and image "B" one of
3, image B's quota `int(1/3 * 2)` is 0, so B is (correctly) excluded from
the quota table — but the generator loop still iterates over all
discovered ids and `self.props["B"]` raises an uncaught `KeyError`:
construction fails. -/
theorem C2_counterexample :
    getIterData_init [fA, fA, fB] 2 none 0 = .error "KeyError" := by
  have hcntA : List.countP (fun f =>
      match lookupProp f "image_id" with
      | some v => pyStr v == "A"
      | none => false) [fA, fA, fB] = 2 := by decide
  have hcntB : List.countP (fun f =>
      match lookupProp f "image_id" with
      | some v => pyStr v == "B"
      | none => false) [fA, fA, fB] = 1 := by decide
  have hA : get_proportion [fA, fA, fB] "image_id" "A" = some ((2:ℚ)/3) := by
    simp only [get_proportion, hcntA]
    norm_num
  have hB : get_proportion [fA, fA, fB] "image_id" "B" = some ((1:ℚ)/3) := by
    simp only [get_proportion, hcntB]
    norm_num
  have hpA : pyInt ((2:ℚ)/3 * ((2:ℕ):ℚ)) = 1 := by
    simp only [pyInt]
    rw [if_pos (by norm_num)]
    rw [show (2:ℚ)/3 * ((2:ℕ):ℚ) = ((4:ℕ):ℚ)/((3:ℕ):ℚ) by push_cast; ring]
    rw [Rat.floor_natCast_div_natCast]
    decide
  have hpB : pyInt ((1:ℚ)/3 * ((2:ℕ):ℚ)) = 0 := by
    simp only [pyInt]
    rw [if_pos (by norm_num)]
    rw [show (1:ℚ)/3 * ((2:ℕ):ℚ) = ((2:ℕ):ℚ)/((3:ℕ):ℚ) by push_cast; ring]
    rw [Rat.floor_natCast_div_natCast]
    decide
  have hemp : empiricalProps [fA, fA, fB] 2 = [("A", 1)] := by
    simp only [empiricalProps]
    rw [show find_unique_values [fA, fA, fB] "image_id" = ["A", "B"] from rfl]
    rw [List.filterMap_cons, List.filterMap_cons, List.filterMap_nil]
    rw [hA, hB]
    simp only []
    rw [hpA, hpB]
    rw [if_pos (by norm_num), if_neg (by norm_num)]
  have htab : initTables [fA, fA, fB] 2 none = .ok (["A", "B"], [("A", 1)]) := by
    rw [show initTables [fA, fA, fB] 2 none =
      .ok (find_unique_values [fA, fA, fB] "image_id",
        empiricalProps [fA, fA, fB] 2) from rfl]
    rw [hemp, show find_unique_values [fA, fA, fB] "image_id" = ["A", "B"] from rfl]
  have hfix : fixShortfall 2 0 [("A", 1)] = .ok [("A", 2)] := rfl
  have hgens : initChipGens ["A", "B"] [("A", 2)] = .error "KeyError" := rfl
  unfold getIterData_init
  rw [htab]
  simp only []
  rw [hfix]
  simp only []
  rw [hgens]

/-- Claim C2, amended: in the empirical path, only images with strictly
positive computed quota enter the quota table; construction then succeeds
— instantiating one chip generator per *discovered* image id, sized by
that id's (shortfall-corrected) quota — if and only if every discovered
image id is present in the quota table; an id filtered out for a zero
quota makes construction raise `KeyError` instead. -/
theorem C2_empirical_construction (features : List Feature) (B choice : ℕ)
    (ids : List String) (props0 props1 : List (String × ℤ))
    (htab : initTables features B none = .ok (ids, props0))
    (hfix : fixShortfall B choice props0 = .ok props1) :
    (∀ kv ∈ props0, 0 < kv.2) ∧
    ((∀ id ∈ ids, (assocLookup props1 id).isSome) →
      getIterData_init features B none choice =
        .ok ⟨ids, props1, ids.map fun id => (id, (assocLookup props1 id).getD 0)⟩) ∧
    ((∃ id ∈ ids, assocLookup props1 id = none) →
      getIterData_init features B none choice = .error "KeyError") := by
  have htab' : (Except.ok (find_unique_values features "image_id",
      empiricalProps features B) : Except String _) = .ok (ids, props0) := htab
  obtain ⟨hids, hprops0⟩ := Prod.mk.inj (Except.ok.inj htab')
  refine ⟨?_, ?_, ?_⟩
  · intro kv hkv
    rw [← hprops0] at hkv
    exact empiricalProps_pos features B kv hkv
  · intro hall
    unfold getIterData_init
    rw [htab]
    simp only []
    rw [hfix]
    simp only []
    rw [initChipGens_ok ids props1 hall]
  · intro hsome
    unfold getIterData_init
    rw [htab]
    simp only []
    rw [hfix]
    simp only []
    rw [initChipGens_err ids props1 hsome]

/-- Witness for C2 (amended): two images with equal shares and batch size
2 give both images quota 1, and construction succeeds with one generator
per image sized by its quota. -/
theorem C2_empirical_construction_witness :
    getIterData_init [fA, fB] 2 none 0 =
      .ok ⟨["A", "B"], [("A", 1), ("B", 1)], [("A", 1), ("B", 1)]⟩ := by
  have hcntA : List.countP (fun f =>
      match lookupProp f "image_id" with
      | some v => pyStr v == "A"
      | none => false) [fA, fB] = 1 := by decide
  have hcntB : List.countP (fun f =>
      match lookupProp f "image_id" with
      | some v => pyStr v == "B"
      | none => false) [fA, fB] = 1 := by decide
  have hA : get_proportion [fA, fB] "image_id" "A" = some ((1:ℚ)/2) := by
    simp only [get_proportion, hcntA]
    norm_num
  have hB : get_proportion [fA, fB] "image_id" "B" = some ((1:ℚ)/2) := by
    simp only [get_proportion, hcntB]
    norm_num
  have hp : pyInt ((1:ℚ)/2 * ((2:ℕ):ℚ)) = 1 := by
    simp only [pyInt]
    rw [if_pos (by norm_num)]
    rw [show (1:ℚ)/2 * ((2:ℕ):ℚ) = ((1:ℤ):ℚ) by push_cast; ring]
    rw [Int.floor_intCast]
  have hemp : empiricalProps [fA, fB] 2 = [("A", 1), ("B", 1)] := by
    simp only [empiricalProps]
    rw [show find_unique_values [fA, fB] "image_id" = ["A", "B"] from rfl]
    rw [List.filterMap_cons, List.filterMap_cons, List.filterMap_nil]
    rw [hA, hB]
    simp only []
    rw [hp]
    rw [if_pos (by norm_num)]
    rfl
  have htab : initTables [fA, fB] 2 none = .ok (["A", "B"], [("A", 1), ("B", 1)]) := by
    rw [show initTables [fA, fB] 2 none =
      .ok (find_unique_values [fA, fB] "image_id",
        empiricalProps [fA, fB] 2) from rfl]
    rw [hemp, show find_unique_values [fA, fB] "image_id" = ["A", "B"] from rfl]
  have hfix : fixShortfall 2 0 [("A", 1), ("B", 1)] =
      .ok [("A", 1), ("B", 1)] := rfl
  have h := (C2_empirical_construction [fA, fB] 2 0 ["A", "B"]
    [("A", 1), ("B", 1)] [("A", 1), ("B", 1)] htab hfix).2.1 (by decide)
  rw [show (["A", "B"].map fun id =>
      (id, (assocLookup [("A", 1), ("B", 1)] id).getD 0)) =
    [("A", 1), ("B", 1)] from rfl] at h
  exact h

/-! ## Lemmas for the quota-sum invariant (C1) -/

theorem sum_ite_eq_le_one (V : List String) (hV : V.Nodup) (s : String) :
    (V.map fun v => if s == v then (1:ℕ) else 0).sum ≤ 1 := by
  induction V with
  | nil => simp
  | cons v V ih =>
    rw [List.map_cons, List.sum_cons]
    obtain ⟨hvV, hVnd⟩ := List.nodup_cons.mp hV
    by_cases hv : s == v
    · rw [if_pos hv]
      have hs : s = v := by simpa using hv
      have hz : (V.map fun v' => if s == v' then (1:ℕ) else 0).sum = 0 := by
        rw [List.sum_eq_zero]
        intro x hx
        obtain ⟨v', hv', rfl⟩ := List.mem_map.mp hx
        rw [if_neg]
        intro hcon
        have hvv' : s = v' := by simpa using hcon
        exact hvV (by rw [hs] at hvv'; rw [hvv']; exact hv')
      omega
    · rw [if_neg hv]
      have := ih hVnd
      omega

theorem sum_counts_le (V : List String) (hV : V.Nodup) (fs : List Feature)
    (name : String) :
    (V.map fun v => fs.countP fun f =>
      match lookupProp f name with
      | some v0 => pyStr v0 == v
      | none => false).sum ≤ fs.length := by
  induction fs with
  | nil => simp
  | cons f fs ih =>
    simp only [List.countP_cons]
    rw [List.sum_map_add]
    have hsec : (V.map fun v =>
        if (match lookupProp f name with
          | some v0 => pyStr v0 == v
          | none => false) then (1:ℕ) else 0).sum ≤ 1 := by
      cases hlk : lookupProp f name with
      | none => simp [hlk]
      | some v0 =>
        simp only [hlk]
        exact sum_ite_eq_le_one V hV (pyStr v0)
    simp only [List.length_cons]
    omega

theorem sum_filterMap_pos_le (V : List String) (t : String → ℤ)
    (ht : ∀ v ∈ V, 0 ≤ t v) :
    ((V.filterMap fun v => if 0 < t v then some (v, t v) else none).map
      Prod.snd).sum ≤ (V.map t).sum := by
  induction V with
  | nil => simp
  | cons v V ih =>
    rw [List.filterMap_cons, List.map_cons, List.sum_cons]
    have hv := ht v (by simp)
    have ihr := ih fun x hx => ht x (by simp [hx])
    by_cases hp : 0 < t v
    · rw [if_pos hp]
      simp only [List.map_cons, List.sum_cons]
      omega
    · rw [if_neg hp]
      simp only []
      omega

/-- The empirical quota table's total never exceeds the batch size:
distinct image ids partition (at most all of) the features, so their
proportions sum to at most 1, and the truncated quotas to at most
`batch_size`. -/
theorem empiricalProps_sum_le (features : List Feature) (B : ℕ) :
    ((empiricalProps features B).map Prod.snd).sum ≤ (B : ℤ) := by
  by_cases hfs : features = []
  · subst hfs
    rw [show empiricalProps [] B = [] from rfl]
    simp
  · have hn : features.length ≠ 0 := by
      simpa [List.length_eq_zero] using hfs
    have hnQ : (0:ℚ) < (features.length : ℚ) := by
      exact_mod_cast Nat.pos_of_ne_zero hn
    set V := find_unique_values features "image_id" with hV
    have hVnd : V.Nodup := List.nodup_dedup _
    set cnt : String → ℕ := fun v => features.countP fun f =>
      match lookupProp f "image_id" with
      | some v0 => pyStr v0 == v
      | none => false with hcnt
    set t : String → ℤ :=
      fun id => pyInt ((cnt id : ℚ) / (features.length : ℚ) * (B : ℚ)) with ht
    have htnn : ∀ v ∈ V, 0 ≤ t v := by
      intro v _
      exact pyInt_nonneg (by positivity)
    have hcongr : empiricalProps features B =
        V.filterMap fun id => if 0 < t id then some (id, t id) else none := by
      rw [show empiricalProps features B =
        V.filterMap (fun id =>
          match get_proportion features "image_id" id with
          | none => none
          | some q =>
            if 0 < pyInt (q * (B : ℚ)) then some (id, pyInt (q * (B : ℚ)))
            else none) from rfl]
      apply List.filterMap_congr
      intro id _
      rw [show get_proportion features "image_id" id =
        some ((cnt id : ℚ) / (features.length : ℚ)) by
          simp only [get_proportion]
          rw [if_neg hn]]
    rw [hcongr]
    have h1 := sum_filterMap_pos_le V t htnn
    have h2 : ((V.map t).sum : ℚ) ≤ (B : ℚ) := by
      rw [Int.cast_list_sum, List.map_map]
      have hstep1 : ((V.map ((fun z : ℤ => (z : ℚ)) ∘ t)).sum) ≤
          (V.map fun id => (cnt id : ℚ) / (features.length : ℚ) * (B : ℚ)).sum := by
        apply List.sum_le_sum
        intro i _
        exact pyInt_cast_le (by positivity)
      have hstep2 : (V.map fun id =>
          (cnt id : ℚ) / (features.length : ℚ) * (B : ℚ)).sum =
          (V.map fun id => (cnt id : ℚ)).sum *
            ((B : ℚ) / (features.length : ℚ)) := by
        rw [show (fun id => (cnt id : ℚ) / (features.length : ℚ) * (B : ℚ))
            = fun id => (cnt id : ℚ) * ((B : ℚ) / (features.length : ℚ)) from by
          funext id; ring]
        exact List.sum_map_mul_right V (fun id => (cnt id : ℚ)) _
      have hstep3 : (V.map fun id => (cnt id : ℚ)).sum ≤
          (features.length : ℚ) := by
        have hnat : (V.map cnt).sum ≤ features.length :=
          sum_counts_le V hVnd features "image_id"
        have hc : (V.map fun id => (cnt id : ℚ)).sum = (((V.map cnt).sum : ℕ) : ℚ) := by
          rw [Nat.cast_list_sum, List.map_map]
          rfl
        rw [hc]
        exact_mod_cast hnat
      have hstep4 : (V.map fun id => (cnt id : ℚ)).sum *
          ((B : ℚ) / (features.length : ℚ)) ≤
          (features.length : ℚ) * ((B : ℚ) / (features.length : ℚ)) := by
        apply mul_le_mul_of_nonneg_right hstep3
        positivity
      have hstep5 : (features.length : ℚ) * ((B : ℚ) / (features.length : ℚ)) =
          (B : ℚ) := by
        field_simp
      calc (V.map ((fun z : ℤ => (z : ℚ)) ∘ t)).sum
          ≤ _ := hstep1
        _ = _ := hstep2
        _ ≤ _ := hstep4
        _ = _ := hstep5
    have h2' : (V.map t).sum ≤ (B : ℤ) := by exact_mod_cast h2
    exact le_trans h1 h2'

/-- In the caller-supplied-proportions path, the quota table values are
non-negative and total at most the batch size (for non-negative supplied
weights). -/
theorem formatProps_bounds (B : ℕ) (props props' : List (String × ℚ))
    (p_new : List (String × ℤ))
    (hw : ∀ kv ∈ props, 0 ≤ kv.2)
    (h : _format_props_input B props = some (props', p_new)) :
    (∀ kv ∈ p_new, 0 ≤ kv.2) ∧ (p_new.map Prod.snd).sum ≤ (B : ℤ) := by
  simp only [_format_props_input] at h
  split at h
  · simp at h
  · rename_i hT
    obtain ⟨-, rfl⟩ := Prod.mk.inj (Option.some.inj h)
    set T : ℚ := (props.map Prod.snd).sum with hTdef
    have hTnn : 0 ≤ T := List.sum_nonneg (by
      intro x hx
      obtain ⟨kv, hkv, rfl⟩ := List.mem_map.mp hx
      exact hw kv hkv)
    have hTpos : 0 < T := lt_of_le_of_ne hTnn (Ne.symm hT)
    have hTpos : 0 < T := lt_of_le_of_ne hTnn (Ne.symm hT)
    constructor
    · intro kv hkv
      obtain ⟨kv1, hkv1, rfl⟩ := List.mem_map.mp hkv
      obtain ⟨kv0, hkv0, rfl⟩ := List.mem_map.mp hkv1
      exact pyInt_nonneg (mul_nonneg
        (div_nonneg (hw kv0 hkv0) hTpos.le) (Nat.cast_nonneg B))
    · rw [List.map_map, List.map_map]
      rw [show ((Prod.snd ∘ fun kv : String × ℚ => (kv.1, pyInt (kv.2 * (B : ℚ)))) ∘
          fun kv : String × ℚ => (kv.1, kv.2 / T)) =
          fun kv : String × ℚ => pyInt (kv.2 / T * (B : ℚ)) from rfl]
      have hQ : ((props.map fun kv : String × ℚ =>
          pyInt (kv.2 / T * (B : ℚ))).sum : ℚ) ≤ (B : ℚ) := by
        rw [Int.cast_list_sum, List.map_map]
        have hstep1 : ((props.map ((fun z : ℤ => (z : ℚ)) ∘
            fun kv : String × ℚ => pyInt (kv.2 / T * (B : ℚ)))).sum) ≤
            (props.map fun kv : String × ℚ => kv.2 / T * (B : ℚ)).sum := by
          apply List.sum_le_sum
          intro kv hkv
          exact pyInt_cast_le (mul_nonneg
            (div_nonneg (hw kv hkv) hTpos.le) (Nat.cast_nonneg B))
        have hstep2 : (props.map fun kv : String × ℚ =>
            kv.2 / T * (B : ℚ)).sum =
            (props.map fun kv : String × ℚ => kv.2).sum * ((B : ℚ) / T) := by
          rw [show (fun kv : String × ℚ => kv.2 / T * (B : ℚ))
              = fun kv : String × ℚ => kv.2 * ((B : ℚ) / T) from by
            funext kv; ring]
          exact List.sum_map_mul_right props (fun kv : String × ℚ => kv.2) _
        have hstep3 : (props.map fun kv : String × ℚ => kv.2).sum *
            ((B : ℚ) / T) = (B : ℚ) := by
          rw [show (props.map fun kv : String × ℚ => kv.2) =
            props.map Prod.snd from rfl, ← hTdef]
          field_simp
        calc (props.map ((fun z : ℤ => (z : ℚ)) ∘
            fun kv : String × ℚ => pyInt (kv.2 / T * (B : ℚ)))).sum
            ≤ _ := hstep1
          _ = _ := hstep2
          _ = _ := hstep3
      exact_mod_cast hQ

theorem sum_set_eq {l : List ℤ} {i : ℕ} (hi : i < l.length) (x : ℤ) :
    (l.set i x).sum = l.sum - l[i] + x := by
  rw [List.sum_set, if_pos hi]
  have hdecomp : l.sum = (l.take i).sum + (l[i] + (l.drop (i + 1)).sum) := by
    conv_lhs => rw [← List.take_append_drop i l]
    rw [List.sum_append, List.drop_eq_getElem_cons hi, List.sum_cons]
  omega

/-- `fixShortfall` characterization: assuming the pre-correction quotas
are non-negative and total at most `batch_size`, the corrected table has
non-negative quotas summing to exactly `batch_size`; it is unchanged when
there is no shortfall, and otherwise only the chosen entry is changed, by
exactly the whole shortfall. -/
theorem fixShortfall_spec (B choice : ℕ) (props0 props1 : List (String × ℤ))
    (h : fixShortfall B choice props0 = .ok props1)
    (hle : (props0.map Prod.snd).sum ≤ (B : ℤ))
    (hnn : ∀ kv ∈ props0, 0 ≤ kv.2) :
    (∀ kv ∈ props1, 0 ≤ kv.2) ∧
    (props1.map Prod.snd).sum = (B : ℤ) ∧
    ((props0.map Prod.snd).sum = (B : ℤ) → props1 = props0) ∧
    ((props0.map Prod.snd).sum < (B : ℤ) → ∃ i < props0.length, ∃ kv,
      props0[i]? = some kv ∧
      props1 = props0.set i
        (kv.1, kv.2 + ((B : ℤ) - (props0.map Prod.snd).sum)) ∧
      ∀ j : ℕ, j ≠ i → props1[j]? = props0[j]?) := by
  simp only [fixShortfall] at h
  split at h
  · rename_i hlt
    cases hkv : props0[choice % props0.length]? with
    | none => rw [hkv] at h; simp at h
    | some kv =>
      rw [hkv] at h
      simp only [] at h
      obtain rfl : _ = props1 := Except.ok.inj h
      have hi : choice % props0.length < props0.length :=
        (List.getElem?_eq_some_iff.mp hkv).1
      have hkv' : props0[choice % props0.length] = kv := by
        have := List.getElem?_eq_getElem hi
        rw [this] at hkv
        exact Option.some.inj hkv
      have hmlen : choice % props0.length < (props0.map Prod.snd).length := by
        simpa using hi
      have hsum : ((props0.set (choice % props0.length)
          (kv.1, kv.2 + ((B : ℤ) - (props0.map Prod.snd).sum))).map
            Prod.snd).sum = (B : ℤ) := by
        rw [List.map_set]
        rw [sum_set_eq hmlen]
        have hgetmap : (props0.map Prod.snd)[choice % props0.length] = kv.2 := by
          rw [List.getElem_map, hkv']
        rw [hgetmap]
        ring
      refine ⟨?_, hsum, fun heq => absurd heq (by omega), ?_⟩
      · intro kv' hkv'mem
        rcases List.mem_or_eq_of_mem_set hkv'mem with hmem | rfl
        · exact hnn kv' hmem
        · have hkvnn : 0 ≤ kv.2 := by
            apply hnn
            rw [← hkv']
            exact List.getElem_mem hi
          simp only []
          omega
      · rintro -
        refine ⟨choice % props0.length, hi, kv, hkv, rfl, fun j hj => ?_⟩
        exact List.getElem?_set_ne (Ne.symm hj)
  · rename_i hge
    obtain rfl : props0 = props1 := Except.ok.inj h
    have heq : (props0.map Prod.snd).sum = (B : ℤ) := by omega
    exact ⟨hnn, heq, fun _ => rfl, fun hlt2 => absurd hlt2 (by omega)⟩

/-- The pre-correction quota table has non-negative entries totalling at
most the batch size, in both construction paths. -/
theorem initTables_bounds (features : List Feature) (B : ℕ)
    (propsIn : Option (List (String × ℚ))) (ids : List String)
    (props0 : List (String × ℤ))
    (hw : ∀ p_, propsIn = some p_ → ∀ kv ∈ p_, 0 ≤ kv.2)
    (htab : initTables features B propsIn = .ok (ids, props0)) :
    (∀ kv ∈ props0, 0 ≤ kv.2) ∧ (props0.map Prod.snd).sum ≤ (B : ℤ) := by
  unfold initTables at htab
  cases propsIn with
  | none =>
    obtain ⟨-, rfl⟩ := Prod.mk.inj (Except.ok.inj htab)
    exact ⟨fun kv hkv => le_of_lt (empiricalProps_pos features B kv hkv),
      empiricalProps_sum_le features B⟩
  | some p =>
    simp only [] at htab
    split at htab
    · obtain ⟨-, rfl⟩ := Prod.mk.inj (Except.ok.inj htab)
      exact ⟨fun kv hkv => le_of_lt (empiricalProps_pos features B kv hkv),
        empiricalProps_sum_le features B⟩
    · cases hfmt : _format_props_input B p with
      | none => rw [hfmt] at htab; simp at htab
      | some pr =>
        rw [hfmt] at htab
        rcases pr with ⟨props'', p_new⟩
        simp only [] at htab
        obtain ⟨-, rfl⟩ := Prod.mk.inj (Except.ok.inj htab)
        exact formatProps_bounds B p props'' p_new (hw p rfl) hfmt

/-- Claim C1: after a successful construction with a non-empty quota
table (and non-negative caller-supplied weights, when supplied), every
per-image quota in `self.props` is non-negative and the quotas sum to
exactly the requested batch size; when the truncated quotas fall short,
the entire shortfall has been added to the quota of the one (randomly
chosen, modelled by `choice`) image, all other entries unchanged. -/
theorem C1_quota_invariant (features : List Feature) (B choice : ℕ)
    (propsIn : Option (List (String × ℚ))) (st : IterState)
    (hw : ∀ p_, propsIn = some p_ → ∀ kv ∈ p_, 0 ≤ kv.2)
    (hok : getIterData_init features B propsIn choice = .ok st)
    (hne : st.props ≠ []) :
    (∀ kv ∈ st.props, 0 ≤ kv.2) ∧
    (st.props.map Prod.snd).sum = (B : ℤ) ∧
    (∀ ids props0, initTables features B propsIn = .ok (ids, props0) →
      ((props0.map Prod.snd).sum = (B : ℤ) → st.props = props0) ∧
      ((props0.map Prod.snd).sum < (B : ℤ) → ∃ i < props0.length, ∃ kv,
        props0[i]? = some kv ∧
        st.props = props0.set i
          (kv.1, kv.2 + ((B : ℤ) - (props0.map Prod.snd).sum)) ∧
        ∀ j : ℕ, j ≠ i → st.props[j]? = props0[j]?)) := by
  unfold getIterData_init at hok
  cases htab : initTables features B propsIn with
  | error e => rw [htab] at hok; simp at hok
  | ok pr =>
    rcases pr with ⟨ids0, props0⟩
    rw [htab] at hok
    simp only [] at hok
    cases hfix : fixShortfall B choice props0 with
    | error e => rw [hfix] at hok; simp at hok
    | ok props1 =>
      rw [hfix] at hok
      simp only [] at hok
      cases hgens : initChipGens ids0 props1 with
      | error e => rw [hgens] at hok; simp at hok
      | ok gens =>
        rw [hgens] at hok
        simp only [] at hok
        obtain rfl : _ = st := Except.ok.inj hok
        obtain ⟨hnn0, hle0⟩ := initTables_bounds features B propsIn ids0 props0 hw htab
        obtain ⟨hnn1, hsum1, hsame, hshort⟩ :=
          fixShortfall_spec B choice props0 props1 hfix hle0 hnn0
        refine ⟨hnn1, hsum1, ?_⟩
        intro ids' props0' htab'
        obtain ⟨-, rfl⟩ := Prod.mk.inj (Except.ok.inj htab')
        exact ⟨hsame, hshort⟩

/-- Witness for C1: supplied weights {A: 1, B: 3} with batch size 8 give
quotas A = 2, B = 6 — non-negative and summing to 8 exactly. -/
theorem C1_quota_invariant_witness :
    (∀ kv ∈ [("A", (2:ℤ)), ("B", 6)], 0 ≤ kv.2) ∧
    ([("A", (2:ℤ)), ("B", 6)].map Prod.snd).sum = ((8:ℕ) : ℤ) := by
  have hfmt : _format_props_input 8 [("A", (1:ℚ)), ("B", 3)] =
      some ([("A", 1/4), ("B", 3/4)], [("A", 2), ("B", 6)]) := by
    have h2 : ⌊(2:ℚ)⌋ = 2 := by norm_num
    have h6 : ⌊(6:ℚ)⌋ = 6 := by norm_num
    simp [_format_props_input, pyInt]
    norm_num [h2, h6]
  have htab : initTables [] 8 (some [("A", (1:ℚ)), ("B", 3)]) =
      .ok (["A", "B"], [("A", 2), ("B", 6)]) := by
    unfold initTables
    simp only []
    rw [if_neg (by decide)]
    rw [hfmt]
    rfl
  have hfix : fixShortfall 8 0 [("A", (2:ℤ)), ("B", 6)] =
      .ok [("A", 2), ("B", 6)] := rfl
  have hgens : initChipGens ["A", "B"] [("A", (2:ℤ)), ("B", 6)] =
      .ok [("A", 2), ("B", 6)] := rfl
  have hok : getIterData_init [] 8 (some [("A", (1:ℚ)), ("B", 3)]) 0 =
      .ok ⟨["A", "B"], [("A", 2), ("B", 6)], [("A", 2), ("B", 6)]⟩ := by
    unfold getIterData_init
    rw [htab]
    simp only []
    rw [hfix]
    simp only []
    rw [hgens]
  have h := C1_quota_invariant [] 8 0 (some [("A", (1:ℚ)), ("B", 3)])
    ⟨["A", "B"], [("A", 2), ("B", 6)], [("A", 2), ("B", 6)]⟩
    (by
      intro p_ hp_
      cases Option.some.inj hp_
      decide)
    hok (by decide)
  exact ⟨h.1, h.2.1⟩

end Mltools
